import Mathlib

/-!
Verification of the MACS Round-Robin / memory-aware scheduling core.

Shallow embedding of `backend/app/core/scheduler.py` (and of its duplicate
`Backend/app/core/scheduler.py`; the two files' Round-Robin simulator,
metrics builder and sliding-window observer are line-for-line identical,
so one embedding serves both; where the two files differ — the page
generator's hotspot start and the memory-aware driver's RNG seeding —
both variants are embedded side by side and named accordingly).

Python `float` inputs are specialised to integers (the spec's process
model declares arrival/burst as integers, and `int(round ·))` is then the
identity); Python dictionaries keyed by process id become total functions
`String → Int` (`dict.get` with a default corresponds to the function's
value off the key set).
-/

namespace MACS


/-- A timeline slice `(pid, start, end)` as produced by the simulator. -/
abbrev Slice := String × Int × Int

/-- CPython string `<=` (code-point lexicographic order), used by
`sorted(..., key=lambda x: (x[0], x[1]))` for the pid tie-break. -/
def strLe (a b : String) : Bool := go a.data b.data
where
  go : List Char → List Char → Bool
    | [], _ => true
    | _ :: _, [] => false
    | c :: cs, d :: ds =>
      if c.toNat < d.toNat then true
      else if d.toNat < c.toNat then false
      else go cs ds

/-- The sort key `(arrival, pid)` of the pending-arrivals list. -/
def lexLe (x y : Int × String) : Bool :=
  decide (x.1 < y.1) || (decide (x.1 = y.1) && strLe x.2 y.2)

/-- Insertion step of the (stable) sort of the pending-arrivals list. -/
def insertArrival (x : Int × String) : List (Int × String) → List (Int × String)
  | [] => [x]
  | y :: ys => if lexLe x y then x :: y :: ys else y :: insertArrival x ys

/-- `sorted([(arr[p], p) for p in processes], key=lambda x: (x[0], x[1]))`. -/
def sortArrivals : List (Int × String) → List (Int × String)
  | [] => []
  | x :: xs => insertArrival x (sortArrivals xs)

/-- `push_arrivals_up_to(t)`: consume every pending arrival with time `≤ t`,
appending its pid to the ready queue if it has remaining burst and is not
already queued.  Returns the new ready queue and the remaining arrivals. -/
def push_arrivals (rem : String → Int) (t : Int) :
    List (Int × String) → List String → List String × List (Int × String)
  | [], ready => (ready, [])
  | (a, pid) :: rest, ready =>
    if a ≤ t then
      push_arrivals rem t rest
        (if 0 < rem pid ∧ pid ∉ ready then ready ++ [pid] else ready)
    else (ready, (a, pid) :: rest)

/-- The `if not ready and future_idx < len(future): now = max(now, next); push`
step shared by both branches of the main loop. -/
def refill (rem : String → Int) :
    List String × List (Int × String) × Int → List String × List (Int × String) × Int
  | ([], (a, pid) :: rest, now) =>
      let now2 := max now a
      let (r2, f2) := push_arrivals rem now2 ((a, pid) :: rest) []
      (r2, f2, now2)
  | st => st

/-- The defensive re-admission scan
`for p in processes: if rem[p] > 0 and arr[p] <= now and p not in ready: append`. -/
def rescan (rem arrF : String → Int) (now : Int) (ps : List String)
    (ready : List String) : List String :=
  ps.foldl (fun acc p => if 0 < rem p ∧ arrF p ≤ now ∧ p ∉ acc then acc ++ [p] else acc) ready

/-- The `while ready:` loop of `simulate_rr_with_quanta`, with an explicit
iteration budget `fuel` (`none` = budget exhausted; `rr_terminates` below
shows the budget chosen by `rr_run` always suffices). -/
def rr_loop (ps : List String) (arrF qmapF : String → Int) :
    Nat → (String → Int) → List (Int × String) → Int → List Slice → List String →
    Option (List Slice)
  | _, _, _, _, timeline, [] => some timeline
  | 0, _, _, _, _, _ :: _ => none
  | fuel + 1, rem, future, now, timeline, pid :: rest =>
    if 0 < rem pid then
      -- run one quantum-bounded slice
      let use : Int := max 1 (min (qmapF pid) (rem pid))
      let fin : Int := now + use
      let rem2 := Function.update rem pid (rem pid - use)
      let pushed := push_arrivals rem2 fin future rest
      let r2 := if 0 < rem2 pid then pushed.1 ++ [pid] else pushed.1
      if r2 = [] then
        let st := refill rem2 (rescan rem2 arrF fin ps r2, pushed.2, fin)
        rr_loop ps arrF qmapF fuel rem2 st.2.1 st.2.2 (timeline ++ [(pid, now, fin)]) st.1
      else
        rr_loop ps arrF qmapF fuel rem2 pushed.2 fin (timeline ++ [(pid, now, fin)]) r2
    else
      -- skip an already-finished process
      let pushed := push_arrivals rem now future rest
      let st := refill rem (pushed.1, pushed.2, now)
      rr_loop ps arrF qmapF fuel rem st.2.1 st.2.2 timeline st.1

/-- `rem`: bursts coerced to non-negative integers over the key set. -/
def rr_rem0 (ps : List String) (bursts : String → Int) : String → Int :=
  fun p => if p ∈ ps then max 0 (bursts p) else 0

/-- `arr`: arrivals over the key set (`arr.get(p, 0)` off it). -/
def rr_arr (ps : List String) (arrivals : String → Int) : String → Int :=
  fun p => if p ∈ ps then arrivals p else 0

/-- `qmap`: quanta coerced to `≥ 1` over the key set (`qmap.get(p, 1)` off it). -/
def rr_qmap (ps : List String) (quanta : String → Int) : String → Int :=
  fun p => if p ∈ ps then max 1 (quanta p) else 1

/-- The initialisation preceding the main loop: build the sorted arrivals
list, push arrivals at time 0, and if nothing is ready jump to the first
pending arrival time.  Returns `(rem, future, now, ready)`. -/
def rr_start (ps : List String) (bursts arrivals : String → Int) :
    (String → Int) × List (Int × String) × Int × List String :=
  let rem := rr_rem0 ps bursts
  let future := sortArrivals (ps.map (fun p => (rr_arr ps arrivals p, p)))
  let pushed := push_arrivals rem 0 future []
  if pushed.1 = [] ∧ pushed.2 ≠ [] then
    let t := pushed.2.headI.1
    let pushed2 := push_arrivals rem t pushed.2 []
    (rem, pushed2.2, t, pushed2.1)
  else (rem, pushed.2, 0, pushed.1)

/-- Iteration budget: linear in total coerced burst and process count. -/
def rr_fuel (ps : List String) (bursts : String → Int) : Nat :=
  (ps.dedup.map (fun p => (rr_rem0 ps bursts p).toNat)).sum * (ps.length + 2) + ps.length

/-- `simulate_rr_with_quanta`, before discharging the iteration budget. -/
def rr_run (ps : List String) (bursts quanta arrivals : String → Int) :
    Option (List Slice) :=
  let st := rr_start ps bursts arrivals
  rr_loop ps (rr_arr ps arrivals) (rr_qmap ps quanta) (rr_fuel ps bursts)
    st.1 st.2.1 st.2.2.1 [] st.2.2.2

/-- `simulate_rr_with_quanta(processes, bursts, quanta, arrivals)`. -/
def simulate_rr_with_quanta (ps : List String) (bursts quanta arrivals : String → Int) :
    List Slice :=
  (rr_run ps bursts quanta arrivals).getD []

/-- Total remaining burst over the (deduplicated) process ids. -/
def sumRem (ps : List String) (rem : String → Int) : Nat :=
  (ps.dedup.map (fun p => (rem p).toNat)).sum

/-- Total duration (`end - start`) of the slices of process `p`. -/
def sliceSum (tl : List Slice) (p : String) : Int :=
  ((tl.filter (fun s => s.1 == p)).map (fun s => s.2.2 - s.2.1)).sum

/-- `completion[pid] = max(completion.get(pid, 0), e)` folded over the
timeline (the value Python's loop leaves for a pid that occurs). -/
def lastCompletion (tl : List Slice) (p : String) : Int :=
  tl.foldl (fun acc s => if s.1 == p then max acc s.2.2 else acc) 0

/-- `completion.get(p, None)`: present iff some slice belongs to `p`. -/
def completionOf (tl : List Slice) (p : String) : Option Int :=
  if tl.any (fun s => s.1 == p) then some (lastCompletion tl p) else none

/-- `compute_metrics(pids, initial_bursts, timeline, arrivals)`:
returns `(waiting, turnaround, cpu_util, total_time)`. -/
def compute_metrics (pids : List String) (initial_bursts : String → Int)
    (tl : List Slice) (arrivals : String → Int) :
    (String → Int) × (String → Int) × ℚ × Int :=
  if pids = [] ∨ tl = [] then (fun _ => 0, fun _ => 0, 0, 0)
  else
    let total_time : Int := tl.foldl (fun acc s => max acc s.2.2) 0
    let waiting : String → Int := fun p =>
      if p ∈ pids then
        match completionOf tl p with
        | none => 0
        | some comp => max 0 (comp - arrivals p - initial_bursts p)
      else 0
    let turnaround : String → Int := fun p =>
      if p ∈ pids then
        match completionOf tl p with
        | none => 0
        | some comp => max 0 (comp - arrivals p)
      else 0
    let total_cpu : ℚ := ((pids.map initial_bursts).sum : ℤ)
    let util : ℚ := if 0 < total_time then total_cpu / (total_time : ℚ) * 100 else 0
    (waiting, turnaround, util, total_time)

/-- `count_context_switches`: adjacent differing-pid pairs. -/
def count_context_switches (tl : List Slice) : Nat :=
  match tl with
  | [] => 0
  | s0 :: rest => go s0.1 rest
where
  go (prev : String) : List Slice → Nat
    | [] => 0
    | s :: rest => (if s.1 ≠ prev then 1 else 0) + go s.1 rest

/-- Invariant of `rr_loop` (state `rem/future/now/timeline/ready`), over the
coerced inputs `rr_rem0 ps bursts` and `rr_arr ps arrivals`. -/
structure RRInv (ps : List String) (bursts arrivals : String → Int)
    (rem : String → Int) (future : List (Int × String)) (now : Int)
    (tl : List Slice) (ready : List String) : Prop where
  now_nonneg : 0 ≤ now
  ready_mem : ∀ p ∈ ready, p ∈ ps ∧ rr_arr ps arrivals p ≤ now
  fut_mem : ∀ e ∈ future, e.2 ∈ ps ∧ e.1 = rr_arr ps arrivals e.2 ∧ now < e.1
  fut_sorted : future.Pairwise (fun x y => x.1 ≤ y.1)
  fut_rem : ∀ e ∈ future, rem e.2 = rr_rem0 ps bursts e.2
  fut_noslice : ∀ e ∈ future, ∀ s ∈ tl, s.1 ≠ e.2
  conservation : ∀ p, sliceSum tl p + rem p = rr_rem0 ps bursts p
  rem_nonneg : ∀ p, 0 ≤ rem p
  active : ∀ p, 0 < rem p → p ∈ ready ∨ p ∈ future.map Prod.snd
  slices_range : ∀ s ∈ tl, s.1 ∈ ps ∧ s.2.1 < s.2.2 ∧ s.2.2 ≤ now
  starts_mono : tl.Pairwise (fun x y => x.2.1 ≤ y.2.1)
  comp_ge : ∀ p, (∃ s ∈ tl, s.1 = p) →
    rr_arr ps arrivals p + (rr_rem0 ps bursts p - rem p) ≤ lastCompletion tl p
  drain : (∀ p ∈ ps, 1 ≤ bursts p) → ready = [] → future = []

/-- `counts.get(page, 0)` on the page → reference-count mapping
(an insertion-ordered association list, as a Python dict). -/
def cget : List (Nat × Nat) → Nat → Nat
  | [], _ => 0
  | e :: m, k => if e.1 = k then e.2 else cget m k

/-- `counts[page] = v`: replace in place, or append a fresh entry. -/
def cset : List (Nat × Nat) → Nat → Nat → List (Nat × Nat)
  | [], k, v => [(k, v)]
  | e :: m, k, v => if e.1 = k then (k, v) :: m else e :: cset m k v

/-- `counts.pop(page, None)`. -/
def cpop : List (Nat × Nat) → Nat → List (Nat × Nat)
  | [], _ => []
  | e :: m, k => if e.1 = k then m else e :: cpop m k

/-- `deque.append` under a `maxlen` bound (overflow discards from the
left; `maxlen = 0` keeps the deque empty, as in CPython). -/
def dequeAppend (maxlen : Nat) (w : List Nat) (page : Nat) : List Nat :=
  if maxlen = 0 then []
  else if maxlen ≤ w.length then w.drop (w.length + 1 - maxlen) ++ [page]
  else w ++ [page]

/-- One simulated page reference of `observe_run`'s loop: fault test
(before any eviction), capacity eviction of the oldest reference, then
admission of the new one.  State: `(window, counts, page_faults)`. -/
def observeStep (maxlen : Nat) (st : List Nat × List (Nat × Nat) × Nat)
    (page : Nat) : List Nat × List (Nat × Nat) × Nat :=
  let faults2 := if cget st.2.1 page = 0 then st.2.2 + 1 else st.2.2
  let wc :=
    if maxlen ≠ 0 ∧ st.1.length = maxlen then
      match st.1 with
      | [] => (st.1, st.2.1)
      | oldest :: wrest =>
        (wrest,
         if cget st.2.1 oldest ≤ 1 then cpop st.2.1 oldest
         else cset st.2.1 oldest (cget st.2.1 oldest - 1))
    else (st.1, st.2.1)
  (dequeAppend maxlen wc.1 page, cset wc.2 page (cget wc.2 page + 1), faults2)

/-- The reference loop of `observe_run` over a given access-page list
(the generator's output); the resulting working-set size is the length of
the counts mapping. -/
def observe_run (maxlen : Nat) (pages : List Nat)
    (st : List Nat × List (Nat × Nat) × Nat) : List Nat × List (Nat × Nat) × Nat :=
  pages.foldl (observeStep maxlen) st

/-- The worked example's burst map. -/
def exBursts : String → Int := fun p => if p = "P1" then 8 else if p = "P2" then 5 else 2

/-- The worked example's arrival map. -/
def exArrivals : String → Int := fun p => if p = "P1" then 0 else if p = "P2" then 3 else 5

/-- A configuration on which a zero-burst arrival starves a later process:
`A(arrival 2, burst 0)`, `B(arrival 5, burst 3)`. -/
def starveBursts : String → Int := fun p => if p = "A" then 0 else 3

/-- Arrivals for the starvation configuration. -/
def starveArrivals : String → Int := fun p => if p = "A" then 2 else 5

/-- Bursts for the three-process starvation configuration
`A(0,2)`, `B(5,0)`, `C(10,3)`. -/
def dropBursts : String → Int := fun p => if p = "A" then 2 else if p = "B" then 0 else 3

/-- Arrivals for the three-process starvation configuration. -/
def dropArrivals : String → Int := fun p => if p = "A" then 0 else if p = "B" then 5 else 10

/-- An exact (unreduced) fraction standing in for a Python float. -/
structure Frac where
  num : Int
  den : Nat
deriving DecidableEq

/-- Float addition. -/
def fadd (a b : Frac) : Frac := ⟨a.num * b.den + b.num * a.den, a.den * b.den⟩

/-- Float subtraction. -/
def fsub (a b : Frac) : Frac := ⟨a.num * b.den - b.num * a.den, a.den * b.den⟩

/-- Float multiplication. -/
def fmul (a b : Frac) : Frac := ⟨a.num * b.num, a.den * b.den⟩

/-- Float division (used only with positive divisors). -/
def fdiv (a b : Frac) : Frac := ⟨a.num * b.den, a.den * b.num.toNat⟩

/-- Float strict comparison `a < b`. -/
def flt (a b : Frac) : Bool := a.num * b.den < b.num * a.den

/-- `int(x)` for non-negative values / `math.floor`. -/
def ffloor (a : Frac) : Int := Int.fdiv a.num a.den

/-- Python `round` (half-to-even). -/
def fround (a : Frac) : Int :=
  let f := Int.fdiv a.num a.den
  let r2 := 2 * (a.num - f * a.den)
  if r2 < a.den then f
  else if (a.den : Int) < r2 then f + 1
  else if f % 2 = 0 then f else f + 1

/-- A `random.Random` instance: its draw stream and a position. -/
structure RSrc where
  vals : Nat → Frac
  idx : Nat

/-- `rng.random()`: one draw in `[0, 1)`. -/
def rnext (r : RSrc) : Frac × RSrc := (r.vals r.idx, ⟨r.vals, r.idx + 1⟩)

/-- `rng.randint(lo, hi)` (both ends inclusive). -/
def randint (lo hi : Int) (r : RSrc) : Int × RSrc :=
  let (u, r2) := rnext r
  (lo + ffloor (fmul u ⟨hi - lo + 1, 1⟩), r2)

/-- `PageGenerator` state (the `Backend/` variant's constructor). -/
structure PageGen where
  pages_count : Nat
  pattern : String
  hotspot_prob : Frac
  hsize : Nat
  hstart : Nat
  seq_index : Nat
  rng : RSrc

/-- `PageGenerator.__init__` (`Backend/` variant: start drawn over
`[0, max_start]`); always consumes one draw for the hotspot start. -/
def pageGen_init (pages_count : Int) (rng : RSrc) (pattern : String)
    (hotspot_frac hotspot_prob : Frac) : PageGen :=
  let pc := max 1 pages_count.toNat
  let hsize := max 1 (ffloor (fmul ⟨(pc : Int), 1⟩ hotspot_frac)).toNat
  let max_start := pc - hsize
  let ur := rnext rng
  let hstart := (ffloor (fmul ur.1 ⟨(max_start : Int) + 1, 1⟩)).toNat
  ⟨pc, pattern, hotspot_prob, hsize, hstart, 0, ur.2⟩

/-- `PageGenerator.next()`. -/
def pageGen_next (g : PageGen) : Nat × PageGen :=
  if g.pattern = "random" then
    let ur := rnext g.rng
    ((ffloor (fmul ur.1 ⟨(g.pages_count : Int), 1⟩)).toNat, { g with rng := ur.2 })
  else if g.pattern = "sequential" then
    (g.seq_index % g.pages_count, { g with seq_index := g.seq_index + 1 })
  else
    let ur := rnext g.rng
    if flt ur.1 g.hotspot_prob then
      let ur2 := rnext ur.2
      ((g.hstart + (ffloor (fmul ur2.1 ⟨(g.hsize : Int), 1⟩)).toNat) % g.pages_count,
       { g with rng := ur2.2 })
    else
      let ur2 := rnext ur.2
      ((ffloor (fmul ur2.1 ⟨(g.pages_count : Int), 1⟩)).toNat, { g with rng := ur2.2 })

/-- `[generator.next() for _ in range(n)]`. -/
def genPages (g : PageGen) : Nat → List Nat × PageGen
  | 0 => ([], g)
  | n + 1 =>
    let pg := pageGen_next g
    let rest := genPages pg.2 n
    (pg.1 :: rest.1, rest.2)

/-- Per-process state of the memory model (`ProcessState`). -/
structure MProc where
  pid : String
  arrival : Int
  burst : Int
  remaining : Int
  pages_count : Nat
  gen : PageGen
  window : List Nat
  ema : Frac
  mem_signal : Frac
  last_obs : Option (Int × Nat × Nat × Nat)
  counts : List (Nat × Nat)

/-- The memory model (`MemoryModel` plus its `MemoryModelConfig`). -/
structure MModel where
  window_access_count : Nat
  accesses_per_time_unit : Int
  ema_beta : Frac
  base_q : Int
  kconst : Frac
  min_memory_mb : Int
  max_memory_mb : Int
  normalization_eps : Frac
  access_pattern : String
  hotspot_frac : Frac
  hotspot_prob : Frac
  global_rng : RSrc
  procs : List (String × MProc)
  dirty : Bool

/-- Dict lookup on the process table. -/
def plookup : List (String × MProc) → String → Option MProc
  | [], _ => none
  | e :: m, k => if e.1 = k then some e.2 else plookup m k

/-- `_proc_seed`: one `randint(0, 2**31 - 1)` from the model's RNG. -/
def mm_proc_seed (m : MModel) : Int × MModel :=
  let vr := randint 0 (2 ^ 31 - 1) m.global_rng
  (vr.1, { m with global_rng := vr.2 })

/-- `create_process`: a per-process `random.Random(proc_seed)` drives a
fresh generator; the process starts with empty window/counts/EMA/signal. -/
def mm_create_process (mt : Nat → Nat → Frac) (m : MModel) (pid : String)
    (arrival burst : Int) (pages_count : Int) (patt : String) : MModel :=
  let sm := mm_proc_seed m
  let proc_rng : RSrc := ⟨mt sm.1.toNat, 0⟩
  let gen := pageGen_init pages_count proc_rng patt m.hotspot_frac m.hotspot_prob
  let proc : MProc :=
    ⟨pid, arrival, burst, burst, (if pages_count = 0 then 1 else pages_count).toNat,
     gen, [], ⟨0, 1⟩, ⟨0, 1⟩, none, []⟩
  { sm.2 with procs := sm.2.procs ++ [(pid, proc)], dirty := true }

/-- `get_effective_quantum(pid, base_q)` on a process's current signal. -/
def proc_effective_quantum (m : MModel) (p : MProc) : Int :=
  max 1 (fround (fmul ⟨m.base_q, 1⟩ (fadd ⟨1, 1⟩ (fmul m.kconst p.mem_signal))))

/-- `get_estimated_memory_mb(pid)`. -/
def proc_estimated_memory (m : MModel) (p : MProc) : Int :=
  fround (fadd ⟨m.min_memory_mb, 1⟩
    (fmul p.mem_signal ⟨m.max_memory_mb - m.min_memory_mb, 1⟩))

/-- `observe_run(pid, run_time)` on one process: generate the access
pages, then run the sliding-window fold of `observe_run`. -/
def proc_observe (m : MModel) (p : MProc) (run_time : Int) : MProc :=
  let accesses := (max 1 (m.accesses_per_time_unit * run_time)).toNat
  let pg := genPages p.gen accesses
  let st := observe_run m.window_access_count pg.1 (p.window, p.counts, 0)
  { p with
    gen := pg.2
    window := st.1
    counts := st.2.1
    last_obs := some (run_time, accesses, st.2.2, st.2.1.length) }

/-- `update_signal(pid, obs)`: EMA of the per-slice fault rate. -/
def proc_update_signal (m : MModel) (p : MProc) (faults accesses : Nat) : MProc :=
  let observed : Frac := if 0 < accesses then ⟨(faults : Int), accesses⟩ else ⟨0, 1⟩
  { p with ema := fadd (fmul m.ema_beta p.ema) (fmul (fsub ⟨1, 1⟩ m.ema_beta) observed) }

/-- `recompute_normalization()` (dirty-flag gated, global max). -/
def mm_normalize (m : MModel) : MModel :=
  if m.dirty = false then m
  else
    let emas := m.procs.map (fun pr => pr.2.ema)
    let maxv : Frac := match emas with
      | [] => ⟨0, 1⟩
      | x :: xs => xs.foldl (fun a b => if flt a b then b else a) x
    let procs2 := m.procs.map (fun pr =>
      (pr.1, { pr.2 with mem_signal :=
        if (flt m.normalization_eps maxv) then fdiv pr.2.ema maxv else ⟨0, 1⟩ }))
    { m with procs := procs2, dirty := false }

/-- One adaptation round: for every process in order, observe a run of the
current effective quantum and update its signal; then renormalise. -/
def mm_round (m : MModel) : MModel :=
  let procs2 := m.procs.map (fun pr =>
    let q := proc_effective_quantum m pr.2
    let p2 := proc_observe m pr.2 (max 1 q)
    let obs := p2.last_obs.getD (0, 0, 0, 0)
    (pr.1, proc_update_signal m p2 obs.2.2.1 obs.2.1))
  mm_normalize { m with procs := procs2, dirty := true }

/-- `n` adaptation rounds. -/
def mm_rounds : Nat → MModel → MModel
  | 0, m => m
  | n + 1, m => mm_rounds n (mm_round m)

/-- A validated process spec (shape of `ProcessInput`). -/
structure ProcessSpec where
  pid : String
  arrival_time : Int
  burst_time : Int
  pages_count : Nat
deriving DecidableEq

/-- The validated configuration consumed by the drivers.  The `rng_seed`
field is modelled from the spec: the `Backend/` variant reads
`config.rng_seed` but its schemas module is not part of the sources. -/
structure SystemConfig where
  cpu_quantum : Int
  processes : List ProcessSpec
  rng_seed : Option Nat
deriving DecidableEq

/-- `build_cpu_series(timeline, total_time)`: per-tick occupancy. -/
def build_cpu_series (tl : List Slice) (total_time : Int) : List (Nat × Nat) :=
  if tl = [] ∨ total_time ≤ 0 then []
  else
    let T := total_time.toNat
    (List.range T).map (fun t =>
      (t, if tl.any (fun s => decide (s.2.1 < s.2.2) &&
            decide (max 0 s.2.1 ≤ (t : Int)) && decide ((t : Int) < min (T : Int) s.2.2))
          then 100 else 0))

/-- `compute_real_cpu_util_from_series`. -/
def cpu_util_from_series (series : List (Nat × Nat)) : Frac :=
  if series.isEmpty then ⟨0, 1⟩
  else ⟨100 * (series.filter (fun e => 0 < e.2)).length, series.length⟩

/-- Sort key of `generate_trace` (`stopped` before `running` at equal
times, then pid). -/
def traceLe (x y : Int × String × String) : Bool :=
  let ox : Nat := if x.2.1 = "stopped" then 0 else 1
  let oy : Nat := if y.2.1 = "stopped" then 0 else 1
  decide (x.1 < y.1) ||
    (decide (x.1 = y.1) && (decide (ox < oy) ||
      (decide (ox = oy) && strLe x.2.2 y.2.2)))

/-- Insertion step of the trace sort. -/
def insertTrace (x : Int × String × String) :
    List (Int × String × String) → List (Int × String × String)
  | [] => [x]
  | y :: ys => if traceLe x y then x :: y :: ys else y :: insertTrace x ys

/-- Stable sort of trace events. -/
def sortTrace : List (Int × String × String) → List (Int × String × String)
  | [] => []
  | x :: xs => insertTrace x (sortTrace xs)

/-- `generate_trace(timeline)`. -/
def generate_trace (tl : List Slice) : List (Int × String × String) :=
  sortTrace ((tl.filter (fun s => decide (s.2.1 < s.2.2))).flatMap
    (fun s => [(s.2.1, "running", s.1), (s.2.2, "stopped", s.1)]))

/-- `_compute_avg_from_map` over the per-process map. -/
def avg_from_map (ps : List String) (m : String → Int) : Frac :=
  if ps.isEmpty then ⟨0, 1⟩ else ⟨(ps.map m).sum, ps.length⟩

/-- The `meta` payload attached by the memory-aware driver. -/
structure MetaInfo where
  avg_wait : Frac
  avg_turnaround : Frac
  memory_quanta : List (String × Int)
  memory_estimates : List (String × Int)
  mem_signals : List (String × Frac)
deriving DecidableEq

/-- `SimulationResult` (dict-valued fields as association lists in
process order). -/
structure SimulationResult where
  turnaround_times : List (String × Int)
  waiting_times : List (String × Int)
  cpu_utilization : Frac
  total_time : Int
  context_switches : Nat
  trace : List (Int × String × String)
  inferred_quanta : List (String × Int)
  memory_estimates : List (String × Int)
  cpu_series : List (Nat × Nat)
  meta : MetaInfo
deriving DecidableEq

/-- `random.Random(seed)` when a seed is given, `random.Random()` (ambient
entropy) otherwise. -/
def mkRandomInstance (mt : Nat → Nat → Frac) (ent : Nat → Frac)
    (seed : Option Nat) : RSrc :=
  match seed with
  | some s => ⟨mt s, 0⟩
  | none => ⟨ent, 0⟩

/-- Body of `simulate_memory_aware` after both RNG instances have been
constructed (`grng` for the `MemoryModel`, `crng` for the pattern /
page-count choices). -/
def simulate_memory_aware_core (mt : Nat → Nat → Frac) (config : SystemConfig)
    (grng crng : RSrc) : SimulationResult :=
  let processes := config.processes.map (fun p => p.pid)
  let initial_bursts : String → Int := fun p =>
    ((config.processes.find? (fun q => q.pid == p)).map
      (fun q => q.burst_time)).getD 0
  let arrivals : String → Int := fun p =>
    ((config.processes.find? (fun q => q.pid == p)).map
      (fun q => q.arrival_time)).getD 0
  let base_q := config.cpu_quantum
  let mm0 : MModel :=
    { window_access_count := 50
      accesses_per_time_unit := 1
      ema_beta := ⟨17, 20⟩
      base_q := base_q
      kconst := ⟨1, 1⟩
      min_memory_mb := 8
      max_memory_mb := 320
      normalization_eps := ⟨1, 1000000000⟩
      access_pattern := "locality"
      hotspot_frac := ⟨1, 5⟩
      hotspot_prob := ⟨4, 5⟩
      global_rng := grng
      procs := []
      dirty := false }
  let choice_rng0 : RSrc := crng
  let patterns := ["locality", "random", "sequential"]
  let created := config.processes.foldl (fun (acc : MModel × RSrc) p =>
    let pages0 := p.pages_count
    let pagesr : Nat × RSrc :=
      if pages0 ≤ 1 then
        let vr := randint 4 24 acc.2
        (vr.1.toNat, vr.2)
      else (pages0, acc.2)
    let pattr := randint 0 (patterns.length - 1) pagesr.2
    let patt := patterns.getD pattr.1.toNat "locality"
    (mm_create_process mt acc.1 p.pid p.arrival_time p.burst_time
      (pagesr.1 : Int) patt, pattr.2)) (mm0, choice_rng0)
  let mm2 := mm_rounds 16 created.1
  let memory_quanta : String → Int := fun p =>
    match plookup mm2.procs p with
    | some pr => proc_effective_quantum mm2 pr
    | none => 1
  let memory_est : String → Int := fun p =>
    match plookup mm2.procs p with
    | some pr => proc_estimated_memory mm2 pr
    | none => 0
  let timeline := simulate_rr_with_quanta processes initial_bursts memory_quanta arrivals
  let metrics := compute_metrics processes initial_bursts timeline arrivals
  let waiting := metrics.1
  let turnaround := metrics.2.1
  let total_time := metrics.2.2.2
  let ctx := count_context_switches timeline
  let series := build_cpu_series timeline total_time
  let util := cpu_util_from_series series
  let mem_signals : List (String × Frac) := processes.map (fun p =>
    (p, match plookup mm2.procs p with
      | some pr => pr.mem_signal
      | none => ⟨0, 1⟩))
  { turnaround_times := processes.map (fun p => (p, turnaround p))
    waiting_times := processes.map (fun p => (p, waiting p))
    cpu_utilization := util
    total_time := total_time
    context_switches := ctx
    trace := generate_trace timeline
    inferred_quanta := processes.map (fun p => (p, memory_quanta p))
    memory_estimates := processes.map (fun p => (p, memory_est p))
    cpu_series := series
    meta := { avg_wait := avg_from_map processes waiting
              avg_turnaround := avg_from_map processes turnaround
              memory_quanta := processes.map (fun p => (p, memory_quanta p))
              memory_estimates := processes.map (fun p => (p, memory_est p))
              mem_signals := mem_signals } }

/-- `simulate_memory_aware(config)` (`Backend/` variant).  `mt` is the
abstract seeded-PRNG stream; `ent1` is the entropy consumed by an unseeded
`MemoryModel` RNG and `ent2` by the unseeded pattern/page-count choice
RNG; both are ignored whenever `config.rng_seed` is supplied. -/
def simulate_memory_aware (mt : Nat → Nat → Frac) (ent1 ent2 : Nat → Frac)
    (config : SystemConfig) : SimulationResult :=
  simulate_memory_aware_core mt config
    (mkRandomInstance mt ent1 config.rng_seed)
    (mkRandomInstance mt ent2 config.rng_seed)

/-- `hotspot_size = max(1, int(pages_count * hotspot_frac))` (`int`
truncates toward zero; under the outer `max 1` this agrees with the
floor). -/
def hotspot_size (P : Nat) (f : ℚ) : Int := max 1 ⌊(P : ℚ) * f⌋

/-- `max_start = max(0, pages_count - hotspot_size)`. -/
def hotspot_max_start (P : Nat) (f : ℚ) : Int := max 0 ((P : Int) - hotspot_size P f)

/-- The `backend/` variant:
`int(rng.random() * max(1, max_start)) if max_start > 0 else 0`. -/
def hotspot_start_backend (P : Nat) (f : ℚ) (u : ℚ) : Int :=
  if 0 < hotspot_max_start P f
  then ⌊u * ((max 1 (hotspot_max_start P f) : Int) : ℚ)⌋ else 0

/-- The `Backend/` variant:
`int(rng.random() * (max_start + 1)) if max_start >= 0 else 0`. -/
def hotspot_start_Backend (P : Nat) (f : ℚ) (u : ℚ) : Int :=
  if 0 ≤ hotspot_max_start P f
  then ⌊u * ((hotspot_max_start P f + 1 : Int) : ℚ)⌋ else 0

/-- All-zero abstract PRNG stream (for the divergence example). -/
def mtZero : Nat → Nat → Frac := fun _ _ => ⟨0, 1⟩

/-- All-zero ambient entropy stream. -/
def entZero : Nat → Frac := fun _ => ⟨0, 1⟩

/-- An alternative entropy stream differing in its second draw (it makes
the pattern-choice RNG pick `sequential` for the second process). -/
def entAlt : Nat → Frac := fun n => if n = 1 then ⟨2, 3⟩ else ⟨0, 1⟩

/-- Two one-tick processes with 2 pages each, no seed supplied. -/
def divergeConfig : SystemConfig := ⟨1, [⟨"A", 0, 1, 2⟩, ⟨"B", 0, 1, 2⟩], none⟩

/-! ### Theorems -/

theorem push_arrivals_ready_extend (rem : String → Int) (t : Int) :
    ∀ (f : List (Int × String)) (r : List String),
      ∃ l, (push_arrivals rem t f r).1 = r ++ l := by
  intro f
  induction f with
  | nil => intro r; exact ⟨[], by simp [push_arrivals]⟩
  | cons e rest ih =>
    intro r
    obtain ⟨a, pid⟩ := e
    by_cases h : a ≤ t
    · by_cases h2 : 0 < rem pid ∧ pid ∉ r
      · obtain ⟨l, hl⟩ := ih (r ++ [pid])
        exact ⟨pid :: l, by simp [push_arrivals, if_pos h, if_pos h2, hl]⟩
      · obtain ⟨l, hl⟩ := ih r
        exact ⟨l, by simp [push_arrivals, if_pos h, if_neg h2, hl]⟩
    · exact ⟨[], by simp [push_arrivals, if_neg h]⟩

theorem mem_push_arrivals_of_mem (rem : String → Int) (t : Int)
    (f : List (Int × String)) (r : List String) {p : String} (hp : p ∈ r) :
    p ∈ (push_arrivals rem t f r).1 := by
  obtain ⟨l, hl⟩ := push_arrivals_ready_extend rem t f r
  rw [hl]; exact List.mem_append_left _ hp

theorem push_arrivals_ready_ne_nil (rem : String → Int) (t : Int)
    (f : List (Int × String)) {r : List String} (hr : r ≠ []) :
    (push_arrivals rem t f r).1 ≠ [] := by
  obtain ⟨l, hl⟩ := push_arrivals_ready_extend rem t f r
  rw [hl]
  intro h
  exact hr (List.append_eq_nil.mp h).1

theorem push_arrivals_future_sublist (rem : String → Int) (t : Int) :
    ∀ (f : List (Int × String)) (r : List String),
      (push_arrivals rem t f r).2.Sublist f := by
  intro f
  induction f with
  | nil => intro r; simp [push_arrivals]
  | cons e rest ih =>
    intro r
    obtain ⟨a, pid⟩ := e
    by_cases h : a ≤ t
    · simpa [push_arrivals, if_pos h] using ((ih _).cons _)
    · simp [push_arrivals, if_neg h]

theorem push_arrivals_length (rem : String → Int) (t : Int) :
    ∀ (f : List (Int × String)) (r : List String),
      (push_arrivals rem t f r).1.length + (push_arrivals rem t f r).2.length ≤
        r.length + f.length := by
  intro f
  induction f with
  | nil => intro r; simp [push_arrivals]
  | cons e rest ih =>
    intro r
    obtain ⟨a, pid⟩ := e
    by_cases h : a ≤ t
    · by_cases h2 : 0 < rem pid ∧ pid ∉ r
      · have := ih (r ++ [pid])
        simp only [push_arrivals, if_pos h, if_pos h2]
        simp only [List.length_append, List.length_cons, List.length_singleton,
          List.length_nil] at this ⊢
        omega
      · have := ih r
        simp only [push_arrivals, if_pos h, if_neg h2]
        simp only [List.length_cons] at this ⊢
        omega
    · simp [push_arrivals, if_neg h]

theorem mem_push_arrivals_cases (rem : String → Int) (t : Int) :
    ∀ (f : List (Int × String)) (r : List String) (p : String),
      p ∈ (push_arrivals rem t f r).1 →
      p ∈ r ∨ ∃ e ∈ f, e.2 = p ∧ e.1 ≤ t ∧ 0 < rem p := by
  intro f
  induction f with
  | nil => intro r p hp; simp [push_arrivals] at hp; exact Or.inl hp
  | cons e rest ih =>
    intro r p hp
    obtain ⟨a, pid⟩ := e
    by_cases h : a ≤ t
    · rw [push_arrivals, if_pos h] at hp
      by_cases h2 : 0 < rem pid ∧ pid ∉ r
      · rw [if_pos h2] at hp
        rcases ih _ _ hp with hmem | ⟨e, he, hep, het, herem⟩
        · rcases List.mem_append.mp hmem with h3 | h3
          · exact Or.inl h3
          · right
            refine ⟨(a, pid), List.mem_cons_self _ _, ?_, h, ?_⟩
            · simpa using (List.mem_singleton.mp h3).symm
            · have : p = pid := by simpa using List.mem_singleton.mp h3
              rw [this]; exact h2.1
        · exact Or.inr ⟨e, List.mem_cons_of_mem _ he, hep, het, herem⟩
      · rw [if_neg h2] at hp
        rcases ih _ _ hp with hmem | ⟨e, he, hep, het, herem⟩
        · exact Or.inl hmem
        · exact Or.inr ⟨e, List.mem_cons_of_mem _ he, hep, het, herem⟩
    · rw [push_arrivals, if_neg h] at hp
      exact Or.inl hp

theorem push_arrivals_keep (rem : String → Int) (t : Int) :
    ∀ (f : List (Int × String)) (r : List String) (p : String),
      0 < rem p → (p ∈ r ∨ p ∈ f.map Prod.snd) →
      p ∈ (push_arrivals rem t f r).1 ∨ p ∈ (push_arrivals rem t f r).2.map Prod.snd := by
  intro f
  induction f with
  | nil =>
    intro r p _ hp
    simp only [List.map_nil, List.not_mem_nil, or_false] at hp
    exact Or.inl (by simpa [push_arrivals] using hp)
  | cons e rest ih =>
    intro r p hrem hp
    obtain ⟨a, pid⟩ := e
    by_cases h : a ≤ t
    · rw [push_arrivals, if_pos h]
      set r2 := if 0 < rem pid ∧ pid ∉ r then r ++ [pid] else r with hr2
      apply ih r2 p hrem
      rcases hp with hp | hp
      · left
        by_cases h2 : 0 < rem pid ∧ pid ∉ r
        · rw [hr2, if_pos h2]; exact List.mem_append_left _ hp
        · rwa [hr2, if_neg h2]
      · rcases List.mem_map.mp hp with ⟨e, he, hep⟩
        rcases List.mem_cons.mp he with he1 | he1
        · -- the consumed head: p = pid
          have hppid : p = pid := by rw [he1] at hep; simpa using hep.symm
          left
          by_cases h3 : pid ∈ r
          · by_cases h2 : 0 < rem pid ∧ pid ∉ r
            · exact absurd h3 h2.2
            · rw [hr2, if_neg h2]; rw [hppid]; exact h3
          · have h2 : 0 < rem pid ∧ pid ∉ r := ⟨by rwa [hppid] at hrem, h3⟩
            rw [hr2, if_pos h2, hppid]
            simp
        · right; exact List.mem_map.mpr ⟨e, he1, hep⟩
    · rw [push_arrivals, if_neg h]
      rcases hp with hp | hp
      · exact Or.inl hp
      · exact Or.inr hp

theorem push_arrivals_future_gt (rem : String → Int) (t : Int) :
    ∀ (f : List (Int × String)) (r : List String),
      f.Pairwise (fun x y => x.1 ≤ y.1) →
      ∀ e ∈ (push_arrivals rem t f r).2, t < e.1 := by
  intro f
  induction f with
  | nil => intro r _ e he; simp [push_arrivals] at he
  | cons x rest ih =>
    intro r hsort e he
    obtain ⟨a, pid⟩ := x
    by_cases h : a ≤ t
    · rw [push_arrivals, if_pos h] at he
      exact ih _ (List.Pairwise.of_cons hsort) e he
    · rw [push_arrivals, if_neg h] at he
      push_neg at h
      rcases List.mem_cons.mp he with he1 | he1
      · rw [he1]; exact h
      · exact lt_of_lt_of_le h ((List.pairwise_cons.mp hsort).1 e he1)

theorem push_arrivals_head_ne_nil (rem : String → Int) (t : Int)
    (a : Int) (pid : String) (rest : List (Int × String)) (r : List String)
    (hat : a ≤ t) (hrem : 0 < rem pid) :
    (push_arrivals rem t ((a, pid) :: rest) r).1 ≠ [] := by
  rw [push_arrivals, if_pos hat]
  by_cases h2 : 0 < rem pid ∧ pid ∉ r
  · rw [if_pos h2]
    exact push_arrivals_ready_ne_nil rem t rest (by simp)
  · have hpid : pid ∈ r := by
      by_contra h3
      exact h2 ⟨hrem, h3⟩
    rw [if_neg h2]
    exact push_arrivals_ready_ne_nil rem t rest
      (by intro h4; rw [h4] at hpid; exact List.not_mem_nil _ hpid)

theorem rescan_ready_extend (rem arrF : String → Int) (now : Int) :
    ∀ (ps : List String) (r : List String),
      ∃ l, rescan rem arrF now ps r = r ++ l := by
  intro ps
  induction ps with
  | nil => intro r; exact ⟨[], by simp [rescan]⟩
  | cons q ps ih =>
    intro r
    by_cases h : 0 < rem q ∧ arrF q ≤ now ∧ q ∉ r
    · obtain ⟨l, hl⟩ := ih (r ++ [q])
      exact ⟨q :: l, by simp [rescan, List.foldl_cons, if_pos h] at hl ⊢; simpa using hl⟩
    · obtain ⟨l, hl⟩ := ih r
      exact ⟨l, by simp [rescan, List.foldl_cons, if_neg h] at hl ⊢; exact hl⟩

theorem rescan_length (rem arrF : String → Int) (now : Int) :
    ∀ (ps : List String) (r : List String),
      (rescan rem arrF now ps r).length ≤ r.length + ps.length := by
  intro ps
  induction ps with
  | nil => intro r; simp [rescan]
  | cons q ps ih =>
    intro r
    by_cases h : 0 < rem q ∧ arrF q ≤ now ∧ q ∉ r
    · have := ih (r ++ [q])
      simp only [rescan, List.foldl_cons, if_pos h] at this ⊢
      simp only [List.length_append, List.length_singleton, List.length_cons,
        List.length_nil] at this ⊢
      omega
    · have := ih r
      simp only [rescan, List.foldl_cons, if_neg h] at this ⊢
      simp only [List.length_cons]
      omega

theorem mem_rescan_cases (rem arrF : String → Int) (now : Int) :
    ∀ (ps : List String) (r : List String) (p : String),
      p ∈ rescan rem arrF now ps r →
      p ∈ r ∨ (p ∈ ps ∧ 0 < rem p ∧ arrF p ≤ now) := by
  intro ps
  induction ps with
  | nil => intro r p hp; simp [rescan] at hp; exact Or.inl hp
  | cons q ps ih =>
    intro r p hp
    by_cases h : 0 < rem q ∧ arrF q ≤ now ∧ q ∉ r
    · rw [rescan, List.foldl_cons, if_pos h] at hp
      rcases ih _ _ hp with hmem | ⟨hps, h1, h2⟩
      · rcases List.mem_append.mp hmem with h3 | h3
        · exact Or.inl h3
        · have : p = q := List.mem_singleton.mp h3
          exact Or.inr ⟨by rw [this]; exact List.mem_cons_self _ _,
            by rw [this]; exact h.1, by rw [this]; exact h.2.1⟩
      · exact Or.inr ⟨List.mem_cons_of_mem _ hps, h1, h2⟩
    · rw [rescan, List.foldl_cons, if_neg h] at hp
      rcases ih _ _ hp with hmem | ⟨hps, h1, h2⟩
      · exact Or.inl hmem
      · exact Or.inr ⟨List.mem_cons_of_mem _ hps, h1, h2⟩

theorem mem_rescan_of_mem (rem arrF : String → Int) (now : Int)
    (ps : List String) (r : List String) {p : String} (hp : p ∈ r) :
    p ∈ rescan rem arrF now ps r := by
  obtain ⟨l, hl⟩ := rescan_ready_extend rem arrF now ps r
  rw [hl]; exact List.mem_append_left _ hp

theorem rescan_complete (rem arrF : String → Int) (now : Int) :
    ∀ (ps : List String) (r : List String) (p : String),
      p ∈ ps → 0 < rem p → arrF p ≤ now →
      p ∈ rescan rem arrF now ps r := by
  intro ps
  induction ps with
  | nil => intro r p hp; simp at hp
  | cons q ps ih =>
    intro r p hp hrem harr
    rcases List.mem_cons.mp hp with rfl | hp2
    · by_cases h : 0 < rem p ∧ arrF p ≤ now ∧ p ∉ r
      · rw [rescan, List.foldl_cons, if_pos h]
        exact mem_rescan_of_mem _ _ _ _ _ (by simp)
      · have hpr : p ∈ r := by
          by_contra h3
          exact h ⟨hrem, harr, h3⟩
        by_cases h4 : 0 < rem p ∧ arrF p ≤ now ∧ p ∉ r
        · exact absurd h4 h
        · rw [rescan, List.foldl_cons, if_neg h4]
          exact mem_rescan_of_mem _ _ _ _ _ hpr
    · by_cases h : 0 < rem q ∧ arrF q ≤ now ∧ q ∉ r
      · rw [rescan, List.foldl_cons, if_pos h]
        exact ih _ _ hp2 hrem harr
      · rw [rescan, List.foldl_cons, if_neg h]
        exact ih _ _ hp2 hrem harr

theorem refill_ready_ne (rem : String → Int) (r : List String)
    (f : List (Int × String)) (now : Int) (hr : r ≠ []) :
    refill rem (r, f, now) = (r, f, now) := by
  cases r with
  | nil => exact absurd rfl hr
  | cons q r =>
    cases f with
    | nil => rfl
    | cons e f => rfl

theorem refill_future_nil (rem : String → Int) (r : List String) (now : Int) :
    refill rem (r, [], now) = (r, [], now) := by
  cases r with
  | nil => rfl
  | cons q r => rfl

theorem refill_active (rem : String → Int) (a : Int) (pid : String)
    (rest : List (Int × String)) (now : Int) :
    refill rem ([], (a, pid) :: rest, now) =
      ((push_arrivals rem (max now a) ((a, pid) :: rest) []).1,
       (push_arrivals rem (max now a) ((a, pid) :: rest) []).2, max now a) := rfl

theorem refill_mem_ready (rem : String → Int) (ps : List String)
    (r : List String) (f : List (Int × String)) (now : Int)
    (hr : ∀ p ∈ r, p ∈ ps) (hf : ∀ e ∈ f, e.2 ∈ ps) :
    ∀ p ∈ (refill rem (r, f, now)).1, p ∈ ps := by
  cases r with
  | cons q r =>
    rw [refill_ready_ne rem _ _ _ (by simp)]
    exact hr
  | nil =>
    cases f with
    | nil => rw [refill_future_nil]; exact hr
    | cons e rest =>
      obtain ⟨a, pid⟩ := e
      rw [refill_active]
      intro p hp
      rcases mem_push_arrivals_cases _ _ _ _ _ hp with h | ⟨e, he, hep, _, _⟩
      · simp at h
      · exact hep ▸ hf e he

theorem refill_mem_future (rem : String → Int) (ps : List String)
    (r : List String) (f : List (Int × String)) (now : Int)
    (hf : ∀ e ∈ f, e.2 ∈ ps) :
    ∀ e ∈ (refill rem (r, f, now)).2.1, e.2 ∈ ps := by
  cases r with
  | cons q r =>
    rw [refill_ready_ne rem _ _ _ (by simp)]
    exact hf
  | nil =>
    cases f with
    | nil => rw [refill_future_nil]; exact hf
    | cons e rest =>
      obtain ⟨a, pid⟩ := e
      rw [refill_active]
      intro e2 he2
      exact hf e2 ((push_arrivals_future_sublist _ _ _ _).mem he2)

theorem refill_length (rem : String → Int)
    (r : List String) (f : List (Int × String)) (now : Int) :
    (refill rem (r, f, now)).1.length + (refill rem (r, f, now)).2.1.length ≤
      r.length + f.length := by
  cases r with
  | cons q r => rw [refill_ready_ne rem _ _ _ (by simp)]
  | nil =>
    cases f with
    | nil => rw [refill_future_nil]
    | cons e rest =>
      obtain ⟨a, pid⟩ := e
      rw [refill_active]
      have := push_arrivals_length rem (max now a) ((a, pid) :: rest) []
      simpa using this

theorem mem_insertArrival {x y : Int × String} {l : List (Int × String)} :
    y ∈ insertArrival x l → y = x ∨ y ∈ l := by
  induction l with
  | nil => intro h; simp [insertArrival] at h; exact Or.inl h
  | cons z l ih =>
    intro h
    rw [insertArrival] at h
    by_cases hc : lexLe x z = true
    · rw [if_pos hc] at h
      rcases List.mem_cons.mp h with h1 | h1
      · exact Or.inl h1
      · exact Or.inr h1
    · rw [if_neg hc] at h
      rcases List.mem_cons.mp h with h1 | h1
      · exact Or.inr (h1 ▸ List.mem_cons_self _ _)
      · rcases ih h1 with h2 | h2
        · exact Or.inl h2
        · exact Or.inr (List.mem_cons_of_mem _ h2)

theorem mem_sortArrivals {y : Int × String} :
    ∀ {l : List (Int × String)}, y ∈ sortArrivals l → y ∈ l := by
  intro l
  induction l with
  | nil => intro h; simp [sortArrivals] at h
  | cons x l ih =>
    intro h
    rw [sortArrivals] at h
    rcases mem_insertArrival h with h1 | h1
    · exact h1 ▸ List.mem_cons_self _ _
    · exact List.mem_cons_of_mem _ (ih h1)

theorem length_insertArrival (x : Int × String) :
    ∀ (l : List (Int × String)), (insertArrival x l).length = l.length + 1 := by
  intro l
  induction l with
  | nil => rfl
  | cons z l ih =>
    rw [insertArrival]
    by_cases hc : lexLe x z = true
    · rw [if_pos hc]; rfl
    · rw [if_neg hc]; simp [ih]

theorem length_sortArrivals :
    ∀ (l : List (Int × String)), (sortArrivals l).length = l.length := by
  intro l
  induction l with
  | nil => rfl
  | cons x l ih => rw [sortArrivals, length_insertArrival, ih]; rfl

theorem sortArrivals_pairwise_le :
    ∀ (l : List (Int × String)),
      (sortArrivals l).Pairwise (fun x y => x.1 ≤ y.1) := by
  have key : ∀ (x : Int × String) (l : List (Int × String)),
      l.Pairwise (fun a b => a.1 ≤ b.1) →
      (insertArrival x l).Pairwise (fun a b => a.1 ≤ b.1) := by
    intro x l
    induction l with
    | nil => intro _; simp [insertArrival]
    | cons z l ih =>
      intro hl
      rw [insertArrival]
      by_cases hc : lexLe x z = true
      · rw [if_pos hc]
        have hxz : x.1 ≤ z.1 := by
          rcases Bool.or_eq_true_iff.mp hc with h | h
          · exact le_of_lt (of_decide_eq_true h)
          · exact le_of_eq (of_decide_eq_true (Bool.and_eq_true_iff.mp h).1)
        refine List.pairwise_cons.mpr ⟨?_, hl⟩
        intro b hb
        rcases List.mem_cons.mp hb with rfl | hb2
        · exact hxz
        · exact le_trans hxz ((List.pairwise_cons.mp hl).1 b hb2)
      · rw [if_neg hc]
        have hzx : z.1 ≤ x.1 := by
          by_contra hlt
          push_neg at hlt
          exact hc (by simp [lexLe, hlt])
        refine List.pairwise_cons.mpr ⟨?_, ih (List.Pairwise.of_cons hl)⟩
        intro b hb
        rcases mem_insertArrival hb with rfl | hb2
        · exact hzx
        · exact (List.pairwise_cons.mp hl).1 b hb2
  intro l
  induction l with
  | nil => simp [sortArrivals]
  | cons x l ih => exact key x _ ih

theorem sum_map_update (rem : String → Int) (p : String) (v : Int) :
    ∀ (l : List String), l.Nodup → p ∈ l →
      (l.map (fun x => (Function.update rem p v x).toNat)).sum + (rem p).toNat =
        (l.map (fun x => (rem x).toNat)).sum + v.toNat := by
  intro l
  induction l with
  | nil => intro _ h; simp at h
  | cons q l ih =>
    intro hnd hp
    rcases List.mem_cons.mp hp with rfl | hp2
    · have hnotin : p ∉ l := (List.nodup_cons.mp hnd).1
      have hmap : l.map (fun x => (Function.update rem p v x).toNat) =
          l.map (fun x => (rem x).toNat) := by
        apply List.map_congr_left
        intro x hx
        have hxp : x ≠ p := fun h => hnotin (h ▸ hx)
        simp [Function.update_noteq hxp]
      simp only [List.map_cons, List.sum_cons, hmap, Function.update_same]
      omega
    · have hqp : q ≠ p := fun h => (List.nodup_cons.mp hnd).1 (h ▸ hp2)
      have := ih (List.nodup_cons.mp hnd).2 hp2
      simp only [List.map_cons, List.sum_cons, Function.update_noteq hqp]
      omega

theorem sumRem_update (ps : List String) (rem : String → Int) {p : String}
    (hp : p ∈ ps) (v : Int) :
    sumRem ps (Function.update rem p v) + (rem p).toNat = sumRem ps rem + v.toNat :=
  sum_map_update rem p v ps.dedup ps.nodup_dedup (List.mem_dedup.mpr hp)

/-- Key step for termination: finishing a slice strictly shrinks the total
remaining burst. -/
theorem sumRem_work_step (ps : List String) (rem : String → Int) {pid : String}
    (hpid : pid ∈ ps) (hpos : 0 < rem pid) {use : Int} (h1 : 1 ≤ use)
    (h2 : use ≤ rem pid) :
    sumRem ps (Function.update rem pid (rem pid - use)) + 1 ≤ sumRem ps rem := by
  have := sumRem_update ps rem hpid (rem pid - use)
  omega

/-- With the measure `sumRem · (|ps| + 2) + |future| + |ready|` as budget,
the main loop always returns a timeline. -/
theorem rr_loop_some (ps : List String) (arrF qmapF : String → Int) :
    ∀ (fuel : Nat) (rem : String → Int) (future : List (Int × String)) (now : Int)
      (tl : List Slice) (ready : List String),
      (∀ p ∈ ready, p ∈ ps) → (∀ e ∈ future, e.2 ∈ ps) →
      sumRem ps rem * (ps.length + 2) + future.length + ready.length ≤ fuel →
      (rr_loop ps arrF qmapF fuel rem future now tl ready).isSome := by
  intro fuel
  induction fuel with
  | zero =>
    intro rem future now tl ready _ _ hm
    cases ready with
    | nil => simp [rr_loop]
    | cons pid rest => simp [List.length_cons] at hm
  | succ fuel ih =>
    intro rem future now tl ready hrdy hfut hm
    cases ready with
    | nil => simp [rr_loop]
    | cons pid rest =>
      have hpidps : pid ∈ ps := hrdy pid (List.mem_cons_self _ _)
      have hrest : ∀ p ∈ rest, p ∈ ps := fun p hp => hrdy p (List.mem_cons_of_mem _ hp)
      simp only [rr_loop]
      by_cases hpos : 0 < rem pid
      · rw [if_pos hpos]
        set use := max 1 (min (qmapF pid) (rem pid)) with huse
        have huse1 : 1 ≤ use := le_max_left _ _
        have huse2 : use ≤ rem pid := by
          rw [huse]
          rcases le_or_lt 1 (min (qmapF pid) (rem pid)) with h | h
          · rw [max_eq_right h]; exact min_le_right _ _
          · rw [max_eq_left (le_of_lt h)]; exact hpos
        set rem2 := Function.update rem pid (rem pid - use) with hrem2
        have hSdec : sumRem ps rem2 + 1 ≤ sumRem ps rem :=
          sumRem_work_step ps rem hpidps hpos huse1 huse2
        have hMdec : sumRem ps rem2 * (ps.length + 2) + (ps.length + 2) ≤
            sumRem ps rem * (ps.length + 2) := by
          calc sumRem ps rem2 * (ps.length + 2) + (ps.length + 2)
              = (sumRem ps rem2 + 1) * (ps.length + 2) := by ring
            _ ≤ sumRem ps rem * (ps.length + 2) :=
                Nat.mul_le_mul_right _ hSdec
        set pushed := push_arrivals rem2 (now + use) future rest with hpushed
        have hplen : pushed.1.length + pushed.2.length ≤ rest.length + future.length :=
          push_arrivals_length _ _ _ _
        have hpmem : ∀ p ∈ pushed.1, p ∈ ps := by
          intro p hp
          rcases mem_push_arrivals_cases _ _ _ _ _ hp with h | ⟨e, he, hep, _, _⟩
          · exact hrest p h
          · exact hep ▸ hfut e he
        have hpfut : ∀ e ∈ pushed.2, e.2 ∈ ps :=
          fun e he => hfut e ((push_arrivals_future_sublist _ _ _ _).mem he)
        set r2 := if 0 < rem2 pid then pushed.1 ++ [pid] else pushed.1 with hr2
        have hr2mem : ∀ p ∈ r2, p ∈ ps := by
          intro p hp
          rw [hr2] at hp
          by_cases h : 0 < rem2 pid
          · rw [if_pos h] at hp
            rcases List.mem_append.mp hp with h1 | h1
            · exact hpmem p h1
            · exact (List.mem_singleton.mp h1) ▸ hpidps
          · rw [if_neg h] at hp
            exact hpmem p hp
        have hr2len : r2.length ≤ pushed.1.length + 1 := by
          rw [hr2]
          by_cases h : 0 < rem2 pid
          · rw [if_pos h]; simp
          · rw [if_neg h]; simp
        by_cases hempty : r2 = []
        · rw [if_pos hempty]
          set rD := rescan rem2 arrF (now + use) ps r2 with hrD
          have hDlen : rD.length ≤ r2.length + ps.length := rescan_length _ _ _ _ _
          have hDmem : ∀ p ∈ rD, p ∈ ps := by
            intro p hp
            rcases mem_rescan_cases _ _ _ _ _ _ hp with h | ⟨h, _, _⟩
            · exact hr2mem p h
            · exact h
          apply ih
          · exact refill_mem_ready rem2 ps rD pushed.2 (now + use) hDmem hpfut
          · exact refill_mem_future rem2 ps rD pushed.2 (now + use) hpfut
          · have hrlen := refill_length rem2 rD pushed.2 (now + use)
            have hz : r2.length = 0 := by rw [hempty]; rfl
            simp only [List.length_cons] at hm
            omega
        · rw [if_neg hempty]
          apply ih _ _ _ _ _ hr2mem hpfut
          simp only [List.length_cons] at hm
          omega
      · rw [if_neg hpos]
        set pushed := push_arrivals rem now future rest with hpushed
        have hplen : pushed.1.length + pushed.2.length ≤ rest.length + future.length :=
          push_arrivals_length _ _ _ _
        have hpmem : ∀ p ∈ pushed.1, p ∈ ps := by
          intro p hp
          rcases mem_push_arrivals_cases _ _ _ _ _ hp with h | ⟨e, he, hep, _, _⟩
          · exact hrest p h
          · exact hep ▸ hfut e he
        have hpfut : ∀ e ∈ pushed.2, e.2 ∈ ps :=
          fun e he => hfut e ((push_arrivals_future_sublist _ _ _ _).mem he)
        apply ih
        · exact refill_mem_ready rem ps pushed.1 pushed.2 now hpmem hpfut
        · exact refill_mem_future rem ps pushed.1 pushed.2 now hpfut
        · have hrlen := refill_length rem pushed.1 pushed.2 now
          simp only [List.length_cons] at hm
          omega

/-- The simulator's iteration budget suffices on every input: `rr_run`
always yields a timeline. -/
theorem rr_run_isSome (ps : List String) (bursts quanta arrivals : String → Int) :
    (rr_run ps bursts quanta arrivals).isSome := by
  simp only [rr_run, rr_start]
  set rem := rr_rem0 ps bursts with hrem
  set F := sortArrivals (ps.map (fun p => (rr_arr ps arrivals p, p))) with hF
  have hFmem : ∀ e ∈ F, e.2 ∈ ps := by
    intro e he
    rcases List.mem_map.mp (mem_sortArrivals he) with ⟨p, hp, hpe⟩
    rw [← hpe]; exact hp
  have hFlen : F.length = ps.length := by rw [hF, length_sortArrivals, List.length_map]
  have hfuel : rr_fuel ps bursts = sumRem ps rem * (ps.length + 2) + ps.length := rfl
  set P := push_arrivals rem 0 F [] with hP
  have hP1mem : ∀ p ∈ P.1, p ∈ ps := by
    intro p hp
    rcases mem_push_arrivals_cases _ _ _ _ _ hp with h | ⟨e, he, hep, _, _⟩
    · simp at h
    · exact hep ▸ hFmem e he
  have hP2mem : ∀ e ∈ P.2, e.2 ∈ ps :=
    fun e he => hFmem e ((push_arrivals_future_sublist _ _ _ _).mem he)
  have hPlen : P.1.length + P.2.length ≤ F.length := by
    have := push_arrivals_length rem 0 F []
    simpa using this
  by_cases hc : P.1 = [] ∧ P.2 ≠ []
  · rw [if_pos hc]
    dsimp only
    apply rr_loop_some
    · intro p hp
      rcases mem_push_arrivals_cases _ _ _ _ _ hp with h | ⟨e, he, hep, _, _⟩
      · simp at h
      · exact hep ▸ hP2mem e he
    · intro e he
      exact hP2mem e ((push_arrivals_future_sublist _ _ _ _).mem he)
    · have h2 := push_arrivals_length rem P.2.headI.1 P.2 []
      rw [hfuel]
      have h3 : P.2.length ≤ ps.length := by rw [← hFlen]; omega
      simp only [List.length_nil] at h2
      omega
  · rw [if_neg hc]
    dsimp only
    apply rr_loop_some
    · exact hP1mem
    · exact hP2mem
    · rw [hfuel]
      rw [hFlen] at hPlen
      omega

/-- `rr_run` and the total wrapper agree. -/
theorem rr_run_eq_simulate (ps : List String) (bursts quanta arrivals : String → Int) :
    rr_run ps bursts quanta arrivals =
      some (simulate_rr_with_quanta ps bursts quanta arrivals) := by
  have h := rr_run_isSome ps bursts quanta arrivals
  rw [simulate_rr_with_quanta]
  cases hr : rr_run ps bursts quanta arrivals with
  | none => rw [hr] at h; simp at h
  | some tl => simp

theorem sliceSum_nil (p : String) : sliceSum [] p = 0 := rfl

theorem sliceSum_cons (s : Slice) (tl : List Slice) (p : String) :
    sliceSum (s :: tl) p = (if s.1 = p then s.2.2 - s.2.1 else 0) + sliceSum tl p := by
  rw [sliceSum, sliceSum, List.filter_cons]
  by_cases h : s.1 = p
  · simp [h]
  · simp [h]

theorem sliceSum_append_single (tl : List Slice) (q : String) (a b : Int) (p : String) :
    sliceSum (tl ++ [(q, a, b)]) p =
      sliceSum tl p + (if q = p then b - a else 0) := by
  rw [sliceSum, sliceSum, List.filter_append, List.map_append, List.sum_append]
  by_cases h : q = p
  · simp [h]
  · simp [h]

theorem sliceSum_eq_zero (tl : List Slice) (p : String)
    (h : ∀ s ∈ tl, s.1 ≠ p) : sliceSum tl p = 0 := by
  rw [sliceSum]
  have : tl.filter (fun s => s.1 == p) = [] := by
    rw [List.filter_eq_nil_iff]
    intro s hs
    simp only [beq_iff_eq]
    exact h s hs
  rw [this]; rfl

theorem sliceSum_nonneg (tl : List Slice) (p : String)
    (h : ∀ s ∈ tl, s.2.1 ≤ s.2.2) : 0 ≤ sliceSum tl p := by
  induction tl with
  | nil => simp [sliceSum_nil]
  | cons s tl ih =>
    rw [sliceSum_cons]
    have h1 := h s (List.mem_cons_self _ _)
    have h2 := ih (fun x hx => h x (List.mem_cons_of_mem _ hx))
    by_cases hs : s.1 = p
    · rw [if_pos hs]; omega
    · rw [if_neg hs]; omega

theorem sliceSum_pos (tl : List Slice) (p : String)
    (hpos : ∀ s ∈ tl, s.2.1 < s.2.2) (hex : ∃ s ∈ tl, s.1 = p) :
    0 < sliceSum tl p := by
  induction tl with
  | nil => obtain ⟨s, hs, _⟩ := hex; simp at hs
  | cons s tl ih =>
    rw [sliceSum_cons]
    have hrest : 0 ≤ sliceSum tl p :=
      sliceSum_nonneg tl p (fun x hx => le_of_lt (hpos x (List.mem_cons_of_mem _ hx)))
    by_cases hs : s.1 = p
    · have := hpos s (List.mem_cons_self _ _)
      rw [if_pos hs]; omega
    · rw [if_neg hs]
      obtain ⟨x, hx, hxp⟩ := hex
      rcases List.mem_cons.mp hx with rfl | hx2
      · exact absurd hxp hs
      · have := ih (fun y hy => hpos y (List.mem_cons_of_mem _ hy)) ⟨x, hx2, hxp⟩
        omega

theorem lastCompletion_append_single (tl : List Slice) (q : String) (a b : Int)
    (p : String) :
    lastCompletion (tl ++ [(q, a, b)]) p =
      if q = p then max (lastCompletion tl p) b else lastCompletion tl p := by
  rw [lastCompletion, lastCompletion, List.foldl_append]
  simp only [List.foldl_cons, List.foldl_nil]
  by_cases h : q = p
  · simp [h]
  · simp [h]

theorem foldl_max_acc_le (p : String) (c : Int) :
    ∀ (tl : List Slice) (acc : Int), acc ≤ c → (∀ s ∈ tl, s.1 = p → s.2.2 ≤ c) →
      tl.foldl (fun acc s => if s.1 == p then max acc s.2.2 else acc) acc ≤ c := by
  intro tl
  induction tl with
  | nil => intro acc h _; simpa using h
  | cons s tl ih =>
    intro acc hacc hall
    rw [List.foldl_cons]
    apply ih
    · by_cases h : s.1 = p
      · simp only [h, beq_self_eq_true, if_true]
        exact max_le hacc (hall s (List.mem_cons_self _ _) h)
      · simp only [beq_iff_eq, h, if_false]
        exact hacc
    · exact fun x hx hxp => hall x (List.mem_cons_of_mem _ hx) hxp

theorem lastCompletion_le (tl : List Slice) (p : String) (c : Int)
    (hc : 0 ≤ c) (h : ∀ s ∈ tl, s.1 = p → s.2.2 ≤ c) :
    lastCompletion tl p ≤ c :=
  foldl_max_acc_le p c tl 0 hc h

theorem foldl_max_le_acc (p : String) :
    ∀ (tl : List Slice) (acc : Int),
      acc ≤ tl.foldl (fun acc s => if s.1 == p then max acc s.2.2 else acc) acc := by
  intro tl
  induction tl with
  | nil => intro acc; simp
  | cons s tl ih =>
    intro acc
    rw [List.foldl_cons]
    refine le_trans ?_ (ih _)
    by_cases h : s.1 = p
    · simp only [h, beq_self_eq_true, if_true]; exact le_max_left _ _
    · simp only [beq_iff_eq, h, if_false]
      exact le_refl _

theorem lastCompletion_nonneg (tl : List Slice) (p : String) :
    0 ≤ lastCompletion tl p :=
  foldl_max_le_acc p tl 0

theorem push_inv (ps : List String) (arrivals : String → Int) (rem : String → Int)
    (t : Int) (future : List (Int × String)) (ready : List String)
    (hrdy : ∀ p ∈ ready, p ∈ ps ∧ rr_arr ps arrivals p ≤ t)
    (hfut : ∀ e ∈ future, e.2 ∈ ps ∧ e.1 = rr_arr ps arrivals e.2)
    (hsort : future.Pairwise (fun x y => x.1 ≤ y.1)) :
    (∀ p ∈ (push_arrivals rem t future ready).1, p ∈ ps ∧ rr_arr ps arrivals p ≤ t) ∧
    (∀ e ∈ (push_arrivals rem t future ready).2,
        e.2 ∈ ps ∧ e.1 = rr_arr ps arrivals e.2 ∧ t < e.1) ∧
    (push_arrivals rem t future ready).2.Pairwise (fun x y => x.1 ≤ y.1) := by
  refine ⟨?_, ?_, ?_⟩
  · intro p hp
    rcases mem_push_arrivals_cases _ _ _ _ _ hp with h | ⟨e, he, hep, het, _⟩
    · exact hrdy p h
    · obtain ⟨h1, h2⟩ := hfut e he
      exact ⟨hep ▸ h1, by rw [← hep, ← h2]; exact het⟩
  · intro e he
    have hm := (push_arrivals_future_sublist rem t future ready).mem he
    exact ⟨(hfut e hm).1, (hfut e hm).2,
      push_arrivals_future_gt rem t future ready hsort e he⟩
  · exact hsort.sublist (push_arrivals_future_sublist rem t future ready)

theorem refill_future_sublist (rem : String → Int) (r : List String)
    (f : List (Int × String)) (now : Int) :
    (refill rem (r, f, now)).2.1.Sublist f := by
  cases r with
  | cons q r => rw [refill_ready_ne rem _ _ _ (by simp)]
  | nil =>
    cases f with
    | nil => rw [refill_future_nil]
    | cons e rest =>
      obtain ⟨a, pid⟩ := e
      rw [refill_active]
      exact push_arrivals_future_sublist _ _ _ _

theorem refill_inv (ps : List String) (arrivals : String → Int) (rem : String → Int)
    (r : List String) (f : List (Int × String)) (now : Int)
    (hrdy : ∀ p ∈ r, p ∈ ps ∧ rr_arr ps arrivals p ≤ now)
    (hfut : ∀ e ∈ f, e.2 ∈ ps ∧ e.1 = rr_arr ps arrivals e.2 ∧ now < e.1)
    (hsort : f.Pairwise (fun x y => x.1 ≤ y.1)) :
    now ≤ (refill rem (r, f, now)).2.2 ∧
    (∀ p ∈ (refill rem (r, f, now)).1,
        p ∈ ps ∧ rr_arr ps arrivals p ≤ (refill rem (r, f, now)).2.2) ∧
    (∀ e ∈ (refill rem (r, f, now)).2.1,
        e.2 ∈ ps ∧ e.1 = rr_arr ps arrivals e.2 ∧ (refill rem (r, f, now)).2.2 < e.1) ∧
    (refill rem (r, f, now)).2.1.Pairwise (fun x y => x.1 ≤ y.1) := by
  cases r with
  | cons q r =>
    rw [refill_ready_ne rem _ _ _ (by simp)]
    exact ⟨le_refl _, hrdy, hfut, hsort⟩
  | nil =>
    cases f with
    | nil =>
      rw [refill_future_nil]
      exact ⟨le_refl _, hrdy, hfut, hsort⟩
    | cons e rest =>
      obtain ⟨a, pid⟩ := e
      rw [refill_active]
      have h := push_inv ps arrivals rem (max now a) ((a, pid) :: rest) []
        (by intro p hp; simp at hp)
        (fun e he => ⟨(hfut e he).1, (hfut e he).2.1⟩) hsort
      exact ⟨le_max_left _ _, h.1, h.2.1, h.2.2⟩

theorem refill_keep (rem : String → Int) (r : List String)
    (f : List (Int × String)) (now : Int) (p : String)
    (hrem : 0 < rem p) (hp : p ∈ r ∨ p ∈ f.map Prod.snd) :
    p ∈ (refill rem (r, f, now)).1 ∨ p ∈ (refill rem (r, f, now)).2.1.map Prod.snd := by
  cases r with
  | cons q r => rw [refill_ready_ne rem _ _ _ (by simp)]; exact hp
  | nil =>
    cases f with
    | nil => rw [refill_future_nil]; exact hp
    | cons e rest =>
      obtain ⟨a, pid⟩ := e
      rw [refill_active]
      apply push_arrivals_keep rem (max now a) ((a, pid) :: rest) [] p hrem
      rcases hp with h | h
      · simp at h
      · exact Or.inr h

theorem refill_drain (rem : String → Int) (r : List String)
    (f : List (Int × String)) (now : Int)
    (hpos : ∀ e ∈ f, 0 < rem e.2)
    (hnil : (refill rem (r, f, now)).1 = []) :
    (refill rem (r, f, now)).2.1 = [] := by
  cases r with
  | cons q r =>
    rw [refill_ready_ne rem _ _ _ (by simp)] at hnil
    exact absurd hnil (by simp)
  | nil =>
    cases f with
    | nil => rw [refill_future_nil]
    | cons e rest =>
      obtain ⟨a, pid⟩ := e
      rw [refill_active] at hnil
      exact absurd hnil
        (push_arrivals_head_ne_nil rem (max now a) a pid rest []
          (le_max_right _ _) (hpos (a, pid) (List.mem_cons_self _ _)))

/-- Preservation of `RRInv` through `rr_loop`: a successful run ends in an
invariant-satisfying state with an empty ready queue. -/
theorem rr_loop_inv (ps : List String) (bursts quanta arrivals : String → Int) :
    ∀ (fuel : Nat) (rem : String → Int) (future : List (Int × String)) (now : Int)
      (tl : List Slice) (ready : List String) (out : List Slice),
      RRInv ps bursts arrivals rem future now tl ready →
      rr_loop ps (rr_arr ps arrivals) (rr_qmap ps quanta) fuel rem future now tl ready
        = some out →
      ∃ rem2 future2 now2, RRInv ps bursts arrivals rem2 future2 now2 out [] := by
  intro fuel
  induction fuel with
  | zero =>
    intro rem future now tl ready out hinv hrun
    cases ready with
    | nil =>
      simp only [rr_loop] at hrun
      obtain rfl : tl = out := Option.some.inj hrun
      exact ⟨rem, future, now, hinv⟩
    | cons pid rest => exact absurd hrun (by simp [rr_loop])
  | succ fuel ih =>
    intro rem future now tl ready out hinv hrun
    cases ready with
    | nil =>
      simp only [rr_loop] at hrun
      obtain rfl : tl = out := Option.some.inj hrun
      exact ⟨rem, future, now, hinv⟩
    | cons pid rest =>
      have hpidps : pid ∈ ps := (hinv.ready_mem pid (List.mem_cons_self _ _)).1
      have harrpid : rr_arr ps arrivals pid ≤ now :=
        (hinv.ready_mem pid (List.mem_cons_self _ _)).2
      have hrest : ∀ p ∈ rest, p ∈ ps ∧ rr_arr ps arrivals p ≤ now :=
        fun p hp => hinv.ready_mem p (List.mem_cons_of_mem _ hp)
      have hfut_flat : ∀ e ∈ future, e.2 ∈ ps ∧ e.1 = rr_arr ps arrivals e.2 :=
        fun e he => ⟨(hinv.fut_mem e he).1, (hinv.fut_mem e he).2.1⟩
      simp only [rr_loop] at hrun
      by_cases hpos : 0 < rem pid
      · rw [if_pos hpos] at hrun
        set use := max 1 (min (rr_qmap ps quanta pid) (rem pid)) with huse
        have huse1 : 1 ≤ use := le_max_left _ _
        have huse2 : use ≤ rem pid := by
          rw [huse]
          rcases le_or_lt 1 (min (rr_qmap ps quanta pid) (rem pid)) with h | h
          · rw [max_eq_right h]; exact min_le_right _ _
          · rw [max_eq_left (le_of_lt h)]; exact hpos
        set rem2 := Function.update rem pid (rem pid - use) with hrem2
        have hrem2pid : rem2 pid = rem pid - use := Function.update_same _ _ _
        have hrem2ne : ∀ p, p ≠ pid → rem2 p = rem p := fun p h =>
          Function.update_noteq h _ _
        have hdisj : ∀ e ∈ future, e.2 ≠ pid := by
          intro e he h
          obtain ⟨_, h2, h3⟩ := hinv.fut_mem e he
          rw [h] at h2
          omega
        set tl2 := tl ++ [(pid, now, now + use)] with htl2
        have hsl2 : ∀ s ∈ tl2, s.1 ∈ ps ∧ s.2.1 < s.2.2 ∧ s.2.2 ≤ now + use := by
          intro s hs
          rcases List.mem_append.mp hs with h | h
          · obtain ⟨a1, a2, a3⟩ := hinv.slices_range s h
            exact ⟨a1, a2, by omega⟩
          · rw [List.mem_singleton.mp h]
            refine ⟨hpidps, by simp only []; omega, le_refl _⟩
        have hmono2 : tl2.Pairwise (fun x y => x.2.1 ≤ y.2.1) := by
          rw [htl2]
          apply List.pairwise_append.mpr
          refine ⟨hinv.starts_mono, List.pairwise_singleton _ _, ?_⟩
          intro x hx y hy
          rw [List.mem_singleton.mp hy]
          obtain ⟨_, b2, b3⟩ := hinv.slices_range x hx
          simp only []
          omega
        have hcons2 : ∀ p, sliceSum tl2 p + rem2 p = rr_rem0 ps bursts p := by
          intro p
          rw [htl2, sliceSum_append_single]
          by_cases h : p = pid
          · subst h
            rw [if_pos rfl, hrem2pid]
            have := hinv.conservation p
            omega
          · rw [if_neg (fun hh => h hh.symm), hrem2ne p h]
            have := hinv.conservation p
            omega
        have hrem2nn : ∀ p, 0 ≤ rem2 p := by
          intro p
          by_cases h : p = pid
          · subst h; rw [hrem2pid]; omega
          · rw [hrem2ne p h]; exact hinv.rem_nonneg p
        have hnos2 : ∀ e ∈ future, ∀ s ∈ tl2, s.1 ≠ e.2 := by
          intro e he s hs
          rcases List.mem_append.mp hs with h | h
          · exact hinv.fut_noslice e he s h
          · rw [List.mem_singleton.mp h]
            exact fun hh => hdisj e he hh.symm
        have hcomp2 : ∀ p, (∃ s ∈ tl2, s.1 = p) →
            rr_arr ps arrivals p + (rr_rem0 ps bursts p - rem2 p) ≤
              lastCompletion tl2 p := by
          intro p hex
          rw [htl2, lastCompletion_append_single]
          by_cases h : pid = p
          · subst h
            rw [if_pos rfl, hrem2pid]
            have hnowge : rr_arr ps arrivals pid +
                (rr_rem0 ps bursts pid - rem pid) ≤ now := by
              by_cases hhad : ∃ s ∈ tl, s.1 = pid
              · have h1 := hinv.comp_ge pid hhad
                have h2 : lastCompletion tl pid ≤ now :=
                  lastCompletion_le tl pid now hinv.now_nonneg
                    (fun s hs _ => (hinv.slices_range s hs).2.2)
                omega
              · push_neg at hhad
                have h0 : sliceSum tl pid = 0 := sliceSum_eq_zero tl pid hhad
                have := hinv.conservation pid
                omega
            have hstep : rr_arr ps arrivals pid +
                (rr_rem0 ps bursts pid - (rem pid - use)) ≤ now + use := by omega
            exact le_trans hstep (le_max_right _ _)
          · rw [if_neg h, hrem2ne p (fun hh => h hh.symm)]
            apply hinv.comp_ge p
            obtain ⟨s, hs, hsp⟩ := hex
            rcases List.mem_append.mp hs with h1 | h1
            · exact ⟨s, h1, hsp⟩
            · rw [List.mem_singleton.mp h1] at hsp
              exact absurd hsp h
        set pushed := push_arrivals rem2 (now + use) future rest with hpushed
        have hrest2 : ∀ p ∈ rest, p ∈ ps ∧ rr_arr ps arrivals p ≤ now + use :=
          fun p hp => ⟨(hrest p hp).1, by have := (hrest p hp).2; omega⟩
        have hpi := push_inv ps arrivals rem2 (now + use) future rest hrest2
          hfut_flat hinv.fut_sorted
        have hp_sub := push_arrivals_future_sublist rem2 (now + use) future rest
        have hp_rem : ∀ e ∈ pushed.2, rem2 e.2 = rr_rem0 ps bursts e.2 := by
          intro e he
          have hm := hp_sub.mem he
          rw [hrem2ne e.2 (hdisj e hm)]
          exact hinv.fut_rem e hm
        have hp_nos : ∀ e ∈ pushed.2, ∀ s ∈ tl2, s.1 ≠ e.2 :=
          fun e he => hnos2 e (hp_sub.mem he)
        set r2 := if 0 < rem2 pid then pushed.1 ++ [pid] else pushed.1 with hr2
        have hr2_rdy : ∀ p ∈ r2, p ∈ ps ∧ rr_arr ps arrivals p ≤ now + use := by
          intro p hp
          rw [hr2] at hp
          by_cases h : 0 < rem2 pid
          · rw [if_pos h] at hp
            rcases List.mem_append.mp hp with h1 | h1
            · exact hpi.1 p h1
            · rw [List.mem_singleton.mp h1]
              exact ⟨hpidps, by omega⟩
          · rw [if_neg h] at hp
            exact hpi.1 p hp
        have hact2 : ∀ p, 0 < rem2 p → p ∈ r2 ∨ p ∈ pushed.2.map Prod.snd := by
          intro p hp
          by_cases h : p = pid
          · subst h
            left
            rw [hr2, if_pos hp]
            simp
          · have hrp : 0 < rem p := by rw [← hrem2ne p h]; exact hp
            have hdispatch : p ∈ pushed.1 ∨ p ∈ pushed.2.map Prod.snd →
                p ∈ r2 ∨ p ∈ pushed.2.map Prod.snd := by
              intro hc
              rcases hc with h3 | h3
              · left
                rw [hr2]
                by_cases hh : 0 < rem2 pid
                · rw [if_pos hh]; exact List.mem_append_left _ h3
                · rw [if_neg hh]; exact h3
              · exact Or.inr h3
            rcases hinv.active p hrp with h1 | h1
            · rcases List.mem_cons.mp h1 with h2 | h2
              · exact absurd h2 h
              · exact hdispatch
                  (push_arrivals_keep rem2 (now + use) future rest p hp (Or.inl h2))
            · exact hdispatch
                (push_arrivals_keep rem2 (now + use) future rest p hp (Or.inr h1))
        by_cases hempty : r2 = []
        · rw [if_pos hempty] at hrun
          set rD := rescan rem2 (rr_arr ps arrivals) (now + use) ps r2 with hrD
          have hD_rdy : ∀ p ∈ rD, p ∈ ps ∧ rr_arr ps arrivals p ≤ now + use := by
            intro p hp
            rcases mem_rescan_cases _ _ _ _ _ _ hp with h | ⟨h1, _, h3⟩
            · exact hr2_rdy p h
            · exact ⟨h1, h3⟩
          have hri := refill_inv ps arrivals rem2 rD pushed.2 (now + use)
            hD_rdy hpi.2.1 hpi.2.2
          have hr_sub := refill_future_sublist rem2 rD pushed.2 (now + use)
          have hfutpos : (∀ p ∈ ps, 1 ≤ bursts p) → ∀ e ∈ pushed.2, 0 < rem2 e.2 := by
            intro hposall e he
            have hmem : e.2 ∈ ps := (hpi.2.1 e he).1
            have h0 : 0 < rr_rem0 ps bursts e.2 := by
              rw [rr_rem0]
              simp only [if_pos hmem]
              have := hposall e.2 hmem
              omega
            rw [hp_rem e he]
            exact h0
          refine ih rem2 _ _ tl2 _ out ?_ hrun
          refine ⟨le_trans (le_trans hinv.now_nonneg (by omega)) hri.1,
            hri.2.1, hri.2.2.1, hri.2.2.2,
            fun e he => hp_rem e (hr_sub.mem he),
            fun e he => hp_nos e (hr_sub.mem he),
            hcons2, hrem2nn, ?_,
            fun s hs => ⟨(hsl2 s hs).1, (hsl2 s hs).2.1,
              le_trans (hsl2 s hs).2.2 hri.1⟩,
            hmono2, hcomp2, ?_⟩
          · intro p hp
            rcases hact2 p hp with h1 | h1
            · rw [hempty] at h1
              simp at h1
            · apply refill_keep rem2 rD pushed.2 (now + use) p hp
              exact Or.inr h1
          · intro hposall hnil
            exact refill_drain rem2 rD pushed.2 (now + use) (hfutpos hposall) hnil
        · rw [if_neg hempty] at hrun
          refine ih rem2 _ _ tl2 _ out ?_ hrun
          refine ⟨by have := hinv.now_nonneg; omega,
            hr2_rdy, hpi.2.1, hpi.2.2, hp_rem, hp_nos,
            hcons2, hrem2nn, hact2, hsl2, hmono2, hcomp2,
            fun _ h => absurd h hempty⟩
      · rw [if_neg hpos] at hrun
        set pushedC := push_arrivals rem now future rest with hpushedC
        have hpiC := push_inv ps arrivals rem now future rest hrest
          hfut_flat hinv.fut_sorted
        have hpC_sub := push_arrivals_future_sublist rem now future rest
        have hriC := refill_inv ps arrivals rem pushedC.1 pushedC.2 now
          hpiC.1 hpiC.2.1 hpiC.2.2
        have hrC_sub := refill_future_sublist rem pushedC.1 pushedC.2 now
        have hfutremC : ∀ e ∈ pushedC.2, rem e.2 = rr_rem0 ps bursts e.2 :=
          fun e he => hinv.fut_rem e (hpC_sub.mem he)
        have hfutposC : (∀ p ∈ ps, 1 ≤ bursts p) → ∀ e ∈ pushedC.2, 0 < rem e.2 := by
          intro hposall e he
          have hmem : e.2 ∈ ps := (hpiC.2.1 e he).1
          have h0 : 0 < rr_rem0 ps bursts e.2 := by
            rw [rr_rem0]
            simp only [if_pos hmem]
            have := hposall e.2 hmem
            omega
          rw [hfutremC e he]
          exact h0
        refine ih rem _ _ tl _ out ?_ hrun
        refine ⟨le_trans hinv.now_nonneg hriC.1,
          hriC.2.1, hriC.2.2.1, hriC.2.2.2,
          fun e he => hfutremC e (hrC_sub.mem he),
          fun e he => hinv.fut_noslice e (hpC_sub.mem (hrC_sub.mem he)),
          hinv.conservation, hinv.rem_nonneg, ?_,
          fun s hs => ⟨(hinv.slices_range s hs).1, (hinv.slices_range s hs).2.1,
            le_trans (hinv.slices_range s hs).2.2 hriC.1⟩,
          hinv.starts_mono, hinv.comp_ge, ?_⟩
        · intro p hp
          apply refill_keep rem pushedC.1 pushedC.2 now p hp
          rcases hinv.active p hp with h1 | h1
          · rcases List.mem_cons.mp h1 with h2 | h2
            · exact absurd (h2 ▸ hp) hpos
            · rcases push_arrivals_keep rem now future rest p hp (Or.inl h2) with h3 | h3
              · exact Or.inl h3
              · exact Or.inr h3
          · rcases push_arrivals_keep rem now future rest p hp (Or.inr h1) with h3 | h3
            · exact Or.inl h3
            · exact Or.inr h3
        · intro hposall hnil
          exact refill_drain rem pushedC.1 pushedC.2 now (hfutposC hposall) hnil

theorem mem_insertArrival_of_mem (x : Int × String) {y : Int × String} :
    ∀ {l : List (Int × String)}, y ∈ l → y ∈ insertArrival x l := by
  intro l
  induction l with
  | nil => intro h; simp at h
  | cons z l ih =>
    intro h
    rw [insertArrival]
    by_cases hc : lexLe x z = true
    · rw [if_pos hc]; exact List.mem_cons_of_mem _ h
    · rw [if_neg hc]
      rcases List.mem_cons.mp h with rfl | h2
      · exact List.mem_cons_self _ _
      · exact List.mem_cons_of_mem _ (ih h2)

theorem self_mem_insertArrival (x : Int × String) :
    ∀ (l : List (Int × String)), x ∈ insertArrival x l := by
  intro l
  induction l with
  | nil => simp [insertArrival]
  | cons z l ih =>
    rw [insertArrival]
    by_cases hc : lexLe x z = true
    · rw [if_pos hc]; exact List.mem_cons_self _ _
    · rw [if_neg hc]; exact List.mem_cons_of_mem _ ih

theorem mem_sortArrivals_of_mem {y : Int × String} :
    ∀ {l : List (Int × String)}, y ∈ l → y ∈ sortArrivals l := by
  intro l
  induction l with
  | nil => intro h; simp at h
  | cons x l ih =>
    intro h
    rw [sortArrivals]
    rcases List.mem_cons.mp h with rfl | h2
    · exact self_mem_insertArrival _ _
    · exact mem_insertArrival_of_mem _ (ih h2)

theorem rr_rem0_nonneg (ps : List String) (bursts : String → Int) (p : String) :
    0 ≤ rr_rem0 ps bursts p := by
  rw [rr_rem0]
  by_cases h : p ∈ ps
  · simp [h]
  · simp [h]

/-- Every full run of the simulator ends in an invariant-satisfying state. -/
theorem simulate_inv (ps : List String) (bursts quanta arrivals : String → Int) :
    ∃ rem2 future2 now2,
      RRInv ps bursts arrivals rem2 future2 now2
        (simulate_rr_with_quanta ps bursts quanta arrivals) [] := by
  have hrun := rr_run_eq_simulate ps bursts quanta arrivals
  simp only [rr_run, rr_start] at hrun
  set rem := rr_rem0 ps bursts with hrem
  set F := sortArrivals (ps.map (fun p => (rr_arr ps arrivals p, p))) with hF
  have hFflat : ∀ e ∈ F, e.2 ∈ ps ∧ e.1 = rr_arr ps arrivals e.2 := by
    intro e he
    rcases List.mem_map.mp (mem_sortArrivals he) with ⟨p, hp, hpe⟩
    refine ⟨?_, ?_⟩
    · rw [← hpe]; exact hp
    · rw [← hpe]
  have hFsort : F.Pairwise (fun x y => x.1 ≤ y.1) := by
    rw [hF]; exact sortArrivals_pairwise_le _
  have hFactive : ∀ p, 0 < rem p → p ∈ F.map Prod.snd := by
    intro p hp
    have hps : p ∈ ps := by
      by_contra h
      rw [hrem, rr_rem0] at hp
      simp [if_neg h] at hp
    refine List.mem_map.mpr ⟨(rr_arr ps arrivals p, p), ?_, rfl⟩
    rw [hF]
    exact mem_sortArrivals_of_mem (List.mem_map.mpr ⟨p, hps, rfl⟩)
  set P := push_arrivals rem 0 F [] with hP
  have hpi := push_inv ps arrivals rem 0 F [] (by intro p hp; simp at hp) hFflat hFsort
  have hkeepP : ∀ p, 0 < rem p → p ∈ P.1 ∨ p ∈ P.2.map Prod.snd := by
    intro p hp
    exact push_arrivals_keep rem 0 F [] p hp (Or.inr (hFactive p hp))
  by_cases hc : P.1 = [] ∧ P.2 ≠ []
  · rw [if_pos hc] at hrun
    dsimp only at hrun
    set t := P.2.headI.1 with ht
    set P2 := push_arrivals rem t P.2 [] with hP2b
    obtain ⟨ehd, ehd_mem, ehd_eq⟩ : ∃ e ∈ P.2, P.2.headI = e := by
      cases hx : P.2 with
      | nil => exact absurd hx hc.2
      | cons y ys => exact ⟨y, List.mem_cons_self _ _, rfl⟩
    have ht_pos : 0 < t := by
      have := (hpi.2.1 ehd ehd_mem).2.2
      rw [ht, ehd_eq]
      exact this
    have hpi2 := push_inv ps arrivals rem t P.2 [] (by intro p hp; simp at hp)
      (fun e he => ⟨(hpi.2.1 e he).1, (hpi.2.1 e he).2.1⟩) hpi.2.2
    refine rr_loop_inv ps bursts quanta arrivals _ _ _ _ _ _ _ ?_ hrun
    refine ⟨le_of_lt ht_pos, hpi2.1, hpi2.2.1, hpi2.2.2,
      fun e _ => rfl,
      fun e he s hs => absurd hs (List.not_mem_nil s),
      fun p => by rw [sliceSum_nil, zero_add],
      fun p => rr_rem0_nonneg ps bursts p,
      ?_,
      fun s hs => absurd hs (List.not_mem_nil s),
      List.Pairwise.nil,
      fun p hex => absurd hex (by simp),
      ?_⟩
    · intro p hp
      apply push_arrivals_keep rem t P.2 [] p hp
      rcases hkeepP p hp with h1 | h1
      · rw [hc.1] at h1
        simp at h1
      · exact Or.inr h1
    · intro hposall hnil
      exfalso
      cases hx : P.2 with
      | nil => exact hc.2 hx
      | cons y ys =>
        obtain ⟨a, pid⟩ := y
        have hpidps : pid ∈ ps := by
          have := (hpi.2.1 (a, pid) (by rw [hx]; exact List.mem_cons_self _ _)).1
          exact this
        have hrempos : 0 < rem pid := by
          rw [hrem, rr_rem0]
          simp only [if_pos hpidps]
          have := hposall pid hpidps
          omega
        have hta : t = a := by rw [ht, hx]; rfl
        have := push_arrivals_head_ne_nil rem t a pid ys [] (le_of_eq hta.symm) hrempos
        rw [hP2b, hx] at hnil
        exact this hnil
  · rw [if_neg hc] at hrun
    dsimp only at hrun
    refine rr_loop_inv ps bursts quanta arrivals _ _ _ _ _ _ _ ?_ hrun
    refine ⟨le_refl 0, hpi.1, hpi.2.1, hpi.2.2,
      fun e _ => rfl,
      fun e he s hs => absurd hs (List.not_mem_nil s),
      fun p => by rw [sliceSum_nil, zero_add],
      fun p => rr_rem0_nonneg ps bursts p,
      hkeepP,
      fun s hs => absurd hs (List.not_mem_nil s),
      List.Pairwise.nil,
      fun p hex => absurd hex (by simp),
      ?_⟩
    intro _ h1
    by_contra h2
    exact hc ⟨h1, h2⟩

/-- Exit facts: well-formedness, conservation, completion bounds,
zero-burst exclusion, and full service under positive bursts. -/
theorem simulate_exit (ps : List String) (bursts quanta arrivals : String → Int) :
    (∀ s ∈ simulate_rr_with_quanta ps bursts quanta arrivals,
        s.1 ∈ ps ∧ s.2.1 < s.2.2) ∧
    (simulate_rr_with_quanta ps bursts quanta arrivals).Pairwise
      (fun x y => x.2.1 ≤ y.2.1) ∧
    (∀ p, (∃ s ∈ simulate_rr_with_quanta ps bursts quanta arrivals, s.1 = p) →
        sliceSum (simulate_rr_with_quanta ps bursts quanta arrivals) p =
          rr_rem0 ps bursts p ∧
        rr_arr ps arrivals p + rr_rem0 ps bursts p ≤
          lastCompletion (simulate_rr_with_quanta ps bursts quanta arrivals) p) ∧
    (∀ p, rr_rem0 ps bursts p = 0 →
        ∀ s ∈ simulate_rr_with_quanta ps bursts quanta arrivals, s.1 ≠ p) ∧
    ((∀ p ∈ ps, 1 ≤ bursts p) →
        ∀ p, sliceSum (simulate_rr_with_quanta ps bursts quanta arrivals) p =
          rr_rem0 ps bursts p) := by
  obtain ⟨rem2, fut2, now2, hinv⟩ := simulate_inv ps bursts quanta arrivals
  refine ⟨fun s hs => ⟨(hinv.slices_range s hs).1, (hinv.slices_range s hs).2.1⟩,
    hinv.starts_mono, ?_, ?_, ?_⟩
  · intro p hex
    have hrem0 : rem2 p = 0 := by
      by_contra h
      have hp : 0 < rem2 p := lt_of_le_of_ne (hinv.rem_nonneg p) (Ne.symm h)
      rcases hinv.active p hp with h1 | h1
      · simp at h1
      · rcases List.mem_map.mp h1 with ⟨e, he, hep⟩
        obtain ⟨s, hs, hsp⟩ := hex
        exact hinv.fut_noslice e he s hs (by rw [hsp, hep])
    have hcons := hinv.conservation p
    have hcomp := hinv.comp_ge p hex
    constructor
    · omega
    · omega
  · intro p h0 s hs hsp
    have hcons := hinv.conservation p
    have hpos : 0 < sliceSum (simulate_rr_with_quanta ps bursts quanta arrivals) p :=
      sliceSum_pos _ p (fun x hx => (hinv.slices_range x hx).2.1) ⟨s, hs, hsp⟩
    have := hinv.rem_nonneg p
    omega
  · intro hpos p
    have hfut : fut2 = [] := hinv.drain hpos rfl
    have hrem0 : rem2 p = 0 := by
      by_contra h
      have hp : 0 < rem2 p := lt_of_le_of_ne (hinv.rem_nonneg p) (Ne.symm h)
      rcases hinv.active p hp with h1 | h1
      · simp at h1
      · rw [hfut] at h1
        simp at h1
    have := hinv.conservation p
    omega

/-- Evaluation of `compute_metrics` for a process that has a slice. -/
theorem compute_metrics_eval (pids : List String) (b : String → Int)
    (tl : List Slice) (a : String → Int) (p : String)
    (hp : p ∈ pids) (hne : pids ≠ []) (htl : tl ≠ [])
    (hany : tl.any (fun s => s.1 == p) = true) :
    (compute_metrics pids b tl a).1 p = max 0 (lastCompletion tl p - a p - b p) ∧
    (compute_metrics pids b tl a).2.1 p = max 0 (lastCompletion tl p - a p) := by
  rw [compute_metrics, if_neg (by simp [hne, htl])]
  dsimp only
  rw [if_pos hp, if_pos hp, completionOf, if_pos hany]
  exact ⟨by ring_nf, by ring_nf⟩

theorem cget_cset_self : ∀ (m : List (Nat × Nat)) (k v : Nat),
    cget (cset m k v) k = v := by
  intro m
  induction m with
  | nil => intro k v; simp [cget, cset]
  | cons e m ih =>
    intro k v
    rw [cset]
    by_cases h : e.1 = k
    · rw [if_pos h, cget, if_pos rfl]
    · rw [if_neg h, cget, if_neg h]
      exact ih k v

theorem cget_cset_ne : ∀ (m : List (Nat × Nat)) (k v q : Nat), q ≠ k →
    cget (cset m k v) q = cget m q := by
  intro m
  induction m with
  | nil =>
    intro k v q hq
    show cget [(k, v)] q = cget [] q
    rw [cget, cget]
    exact if_neg (fun h => hq h.symm)
  | cons x m ih =>
    intro k v q hq
    rw [cset]
    by_cases h : x.1 = k
    · rw [if_pos h, cget, cget,
        if_neg (show ¬((k, v) : Nat × Nat).1 = q from fun hh => hq hh.symm),
        if_neg (show ¬x.1 = q from fun hh => hq (hh.symm.trans h))]
    · rw [if_neg h, cget, cget]
      by_cases h2 : x.1 = q
      · rw [if_pos h2, if_pos h2]
      · rw [if_neg h2, if_neg h2]
        exact ih k v q hq

theorem cget_cpop_ne : ∀ (m : List (Nat × Nat)) (k q : Nat), q ≠ k →
    cget (cpop m k) q = cget m q := by
  intro m
  induction m with
  | nil => intro k q _; rfl
  | cons x m ih =>
    intro k q hq
    rw [cpop]
    by_cases h : x.1 = k
    · rw [if_pos h, cget,
        if_neg (show ¬x.1 = q from fun hh => hq (hh.symm.trans h))]
    · rw [if_neg h, cget, cget]
      by_cases h2 : x.1 = q
      · rw [if_pos h2, if_pos h2]
      · rw [if_neg h2, if_neg h2]
        exact ih k q hq

theorem cget_eq_zero_of_not_mem_keys : ∀ (m : List (Nat × Nat)) (k : Nat),
    k ∉ m.map Prod.fst → cget m k = 0 := by
  intro m
  induction m with
  | nil => intro k _; rfl
  | cons e m ih =>
    intro k hk
    rw [List.map_cons] at hk
    rw [cget, if_neg (show ¬e.1 = k from
      fun h => hk (by rw [← h]; exact List.mem_cons_self _ _))]
    exact ih k (fun h => hk (List.mem_cons_of_mem _ h))

theorem cget_cpop_self : ∀ (m : List (Nat × Nat)) (k : Nat),
    (m.map Prod.fst).Nodup → cget (cpop m k) k = 0 := by
  intro m
  induction m with
  | nil => intro k _; rfl
  | cons e m ih =>
    intro k hnd
    rw [cpop]
    by_cases h : e.1 = k
    · rw [if_pos h]
      apply cget_eq_zero_of_not_mem_keys
      rw [← h]
      exact (List.nodup_cons.mp (by simpa using hnd)).1
    · rw [if_neg h, cget, if_neg h]
      exact ih k (List.nodup_cons.mp (by simpa using hnd)).2

theorem mem_cset : ∀ (m : List (Nat × Nat)) (k v : Nat) (e : Nat × Nat),
    e ∈ cset m k v → e = (k, v) ∨ e ∈ m := by
  intro m
  induction m with
  | nil => intro k v e he; simp [cset] at he; exact Or.inl he
  | cons x m ih =>
    intro k v e he
    rw [cset] at he
    by_cases h : x.1 = k
    · rw [if_pos h] at he
      rcases List.mem_cons.mp he with h1 | h1
      · exact Or.inl h1
      · exact Or.inr (List.mem_cons_of_mem _ h1)
    · rw [if_neg h] at he
      rcases List.mem_cons.mp he with h1 | h1
      · exact Or.inr (by rw [h1]; exact List.mem_cons_self _ _)
      · rcases ih k v e h1 with h2 | h2
        · exact Or.inl h2
        · exact Or.inr (List.mem_cons_of_mem _ h2)

theorem mem_cpop : ∀ (m : List (Nat × Nat)) (k : Nat) (e : Nat × Nat),
    e ∈ cpop m k → e ∈ m := by
  intro m
  induction m with
  | nil => intro k e he; simp [cpop] at he
  | cons x m ih =>
    intro k e he
    rw [cpop] at he
    by_cases h : x.1 = k
    · rw [if_pos h] at he
      exact List.mem_cons_of_mem _ he
    · rw [if_neg h] at he
      rcases List.mem_cons.mp he with h1 | h1
      · exact (by rw [h1]; exact List.mem_cons_self _ _)
      · exact List.mem_cons_of_mem _ (ih k e h1)

theorem keys_cset_cases : ∀ (m : List (Nat × Nat)) (k v q : Nat),
    q ∈ (cset m k v).map Prod.fst → q = k ∨ q ∈ m.map Prod.fst := by
  intro m
  induction m with
  | nil =>
    intro k v q hq
    have h1 : q ∈ [(k, v)].map Prod.fst := hq
    simp at h1
    exact Or.inl h1
  | cons x m ih =>
    intro k v q hq
    rw [cset] at hq
    by_cases h : x.1 = k
    · rw [if_pos h, List.map_cons] at hq
      rcases List.mem_cons.mp hq with h1 | h1
      · exact Or.inl h1
      · right
        rw [List.map_cons]
        exact List.mem_cons_of_mem _ h1
    · rw [if_neg h, List.map_cons] at hq
      rcases List.mem_cons.mp hq with h1 | h1
      · right
        rw [List.map_cons, h1]
        exact List.mem_cons_self _ _
      · rcases ih k v q h1 with h2 | h2
        · exact Or.inl h2
        · right
          rw [List.map_cons]
          exact List.mem_cons_of_mem _ h2

theorem nodup_keys_cset : ∀ (m : List (Nat × Nat)) (k v : Nat),
    (m.map Prod.fst).Nodup → ((cset m k v).map Prod.fst).Nodup := by
  intro m
  induction m with
  | nil => intro k v _; simp [cset]
  | cons x m ih =>
    intro k v hnd
    rw [List.map_cons, List.nodup_cons] at hnd
    rw [cset]
    by_cases h : x.1 = k
    · rw [if_pos h, List.map_cons, List.nodup_cons]
      exact ⟨by rw [← h]; exact hnd.1, hnd.2⟩
    · rw [if_neg h, List.map_cons, List.nodup_cons]
      refine ⟨?_, ih k v hnd.2⟩
      intro hx
      rcases keys_cset_cases m k v x.1 hx with h1 | h1
      · exact h h1
      · exact hnd.1 h1

theorem nodup_keys_cpop : ∀ (m : List (Nat × Nat)) (k : Nat),
    (m.map Prod.fst).Nodup → ((cpop m k).map Prod.fst).Nodup := by
  intro m
  induction m with
  | nil => intro k _; simp [cpop]
  | cons x m ih =>
    intro k hnd
    rw [List.map_cons, List.nodup_cons] at hnd
    rw [cpop]
    by_cases h : x.1 = k
    · rw [if_pos h]; exact hnd.2
    · rw [if_neg h, List.map_cons, List.nodup_cons]
      refine ⟨?_, ih k hnd.2⟩
      intro hx
      rcases List.mem_map.mp hx with ⟨e, he, hep⟩
      exact hnd.1 (List.mem_map.mpr ⟨e, mem_cpop m k e he, hep⟩)

theorem dequeAppend_length (maxlen : Nat) (w : List Nat) (page : Nat)
    (h : w.length ≤ maxlen) : (dequeAppend maxlen w page).length ≤ maxlen := by
  rw [dequeAppend]
  by_cases h0 : maxlen = 0
  · rw [if_pos h0]; simp [h0]
  · rw [if_neg h0]
    by_cases h1 : maxlen ≤ w.length
    · rw [if_pos h1]
      simp only [List.length_append, List.length_drop, List.length_singleton]
      omega
    · rw [if_neg h1]
      simp only [List.length_append, List.length_singleton]
      omega

theorem dequeAppend_eq_append (maxlen : Nat) (w : List Nat) (page : Nat)
    (h0 : maxlen ≠ 0) (h1 : w.length < maxlen) :
    dequeAppend maxlen w page = w ++ [page] := by
  rw [dequeAppend, if_neg h0, if_neg (by omega)]

theorem count_append_single (l : List Nat) (a q : Nat) :
    (l ++ [a]).count q = l.count q + (if q = a then 1 else 0) := by
  rw [List.count_append]
  by_cases h : q = a
  · simp [h]
  · simp [List.count_singleton', h]

/-- Window-capacity and no-zero-count preservation over one reference. -/
theorem observeStep_basic (maxlen : Nat) (w : List Nat) (c : List (Nat × Nat))
    (f : Nat) (page : Nat) (hlen : w.length ≤ maxlen) (hpos : ∀ e ∈ c, 0 < e.2) :
    (observeStep maxlen (w, c, f) page).1.length ≤ maxlen ∧
    (∀ e ∈ (observeStep maxlen (w, c, f) page).2.1, 0 < e.2) := by
  simp only [observeStep]
  by_cases hcond : maxlen ≠ 0 ∧ w.length = maxlen
  · rw [if_pos hcond]
    cases w with
    | nil =>
      exfalso
      exact hcond.1 (by simpa using hcond.2.symm)
    | cons oldest wrest =>
      dsimp only
      constructor
      · apply dequeAppend_length
        have h2 : (oldest :: wrest).length = maxlen := hcond.2
        simp only [List.length_cons] at h2
        omega
      · intro e he
        rcases mem_cset _ _ _ _ he with h1 | h1
        · rw [h1]; dsimp only; omega
        · by_cases h2 : cget c oldest ≤ 1
          · rw [if_pos h2] at h1
            exact hpos e (mem_cpop _ _ _ h1)
          · rw [if_neg h2] at h1
            rcases mem_cset _ _ _ _ h1 with h3 | h3
            · rw [h3]; dsimp only; omega
            · exact hpos e h3
  · rw [if_neg hcond]
    dsimp only
    constructor
    · exact dequeAppend_length maxlen w page hlen
    · intro e he
      rcases mem_cset _ _ _ _ he with h1 | h1
      · rw [h1]; dsimp only; omega
      · exact hpos e h1

theorem observe_run_basic (maxlen : Nat) :
    ∀ (pages : List Nat) (w : List Nat) (c : List (Nat × Nat)) (f : Nat),
      w.length ≤ maxlen → (∀ e ∈ c, 0 < e.2) →
      ((observe_run maxlen pages (w, c, f)).1.length ≤ maxlen ∧
       ∀ e ∈ (observe_run maxlen pages (w, c, f)).2.1, 0 < e.2) := by
  intro pages
  induction pages with
  | nil => intro w c f h1 h2; exact ⟨h1, h2⟩
  | cons page pages ih =>
    intro w c f h1 h2
    have hstep := observeStep_basic maxlen w c f page h1 h2
    have hrec := ih (observeStep maxlen (w, c, f) page).1
      (observeStep maxlen (w, c, f) page).2.1
      (observeStep maxlen (w, c, f) page).2.2 hstep.1 hstep.2
    exact hrec

/-- Counts/window coherence: `counts[q]` equals `q`'s multiplicity in the
window; preserved over one reference whenever the capacity is positive. -/
theorem observeStep_coherent (maxlen : Nat) (hm : maxlen ≠ 0)
    (w : List Nat) (c : List (Nat × Nat)) (f : Nat) (page : Nat)
    (hlen : w.length ≤ maxlen) (hnd : (c.map Prod.fst).Nodup)
    (hcoh : ∀ q, cget c q = w.count q) :
    (observeStep maxlen (w, c, f) page).1.length ≤ maxlen ∧
    (((observeStep maxlen (w, c, f) page).2.1.map Prod.fst).Nodup) ∧
    (∀ q, cget (observeStep maxlen (w, c, f) page).2.1 q =
      (observeStep maxlen (w, c, f) page).1.count q) := by
  simp only [observeStep]
  by_cases hcond : maxlen ≠ 0 ∧ w.length = maxlen
  · rw [if_pos hcond]
    cases w with
    | nil =>
      exfalso
      exact hcond.1 (by simpa using hcond.2.symm)
    | cons oldest wrest =>
      dsimp only
      have hwlen : wrest.length + 1 = maxlen := by
        have h2 : (oldest :: wrest).length = maxlen := hcond.2
        simpa using h2
      have hcnt_old : cget c oldest = wrest.count oldest + 1 := by
        rw [hcoh oldest, List.count_cons_self]
      set c1 := if cget c oldest ≤ 1 then cpop c oldest
        else cset c oldest (cget c oldest - 1) with hc1
      have hnd1 : (c1.map Prod.fst).Nodup := by
        rw [hc1]
        by_cases h2 : cget c oldest ≤ 1
        · rw [if_pos h2]; exact nodup_keys_cpop c oldest hnd
        · rw [if_neg h2]; exact nodup_keys_cset c oldest _ hnd
      have hcoh1 : ∀ q, cget c1 q = wrest.count q := by
        intro q
        by_cases hq : q = oldest
        · subst hq
          rw [hc1]
          by_cases h2 : cget c q ≤ 1
          · rw [if_pos h2, cget_cpop_self c q hnd]
            omega
          · rw [if_neg h2, cget_cset_self]
            omega
        · rw [hc1]
          by_cases h2 : cget c oldest ≤ 1
          · rw [if_pos h2, cget_cpop_ne c oldest q hq, hcoh q,
              List.count_cons_of_ne hq]
          · rw [if_neg h2, cget_cset_ne c oldest _ q hq, hcoh q,
              List.count_cons_of_ne hq]
      have happ : dequeAppend maxlen wrest page = wrest ++ [page] :=
        dequeAppend_eq_append maxlen wrest page hm (by omega)
      refine ⟨?_, nodup_keys_cset c1 page _ hnd1, ?_⟩
      · rw [happ]
        simp only [List.length_append, List.length_singleton]
        omega
      · intro q
        rw [happ, count_append_single]
        by_cases hq : q = page
        · subst hq
          rw [cget_cset_self, hcoh1 q, if_pos rfl]
        · rw [cget_cset_ne c1 page _ q hq, hcoh1 q, if_neg hq]
          omega
  · rw [if_neg hcond]
    dsimp only
    have hlt : w.length < maxlen := by
      rcases Nat.lt_or_ge w.length maxlen with h | h
      · exact h
      · exfalso
        exact hcond ⟨hm, by omega⟩
    have happ : dequeAppend maxlen w page = w ++ [page] :=
      dequeAppend_eq_append maxlen w page hm hlt
    refine ⟨?_, nodup_keys_cset c page _ hnd, ?_⟩
    · rw [happ]
      simp only [List.length_append, List.length_singleton]
      omega
    · intro q
      rw [happ, count_append_single]
      by_cases hq : q = page
      · subst hq
        rw [cget_cset_self, hcoh q, if_pos rfl]
      · rw [cget_cset_ne c page _ q hq, hcoh q, if_neg hq]
        omega

theorem observe_run_coherent (maxlen : Nat) (hm : maxlen ≠ 0) :
    ∀ (pages : List Nat) (w : List Nat) (c : List (Nat × Nat)) (f : Nat),
      w.length ≤ maxlen → (c.map Prod.fst).Nodup →
      (∀ q, cget c q = w.count q) →
      ((observe_run maxlen pages (w, c, f)).1.length ≤ maxlen ∧
       (((observe_run maxlen pages (w, c, f)).2.1.map Prod.fst).Nodup) ∧
       ∀ q, cget (observe_run maxlen pages (w, c, f)).2.1 q =
         (observe_run maxlen pages (w, c, f)).1.count q) := by
  intro pages
  induction pages with
  | nil => intro w c f h1 h2 h3; exact ⟨h1, h2, h3⟩
  | cons page pages ih =>
    intro w c f h1 h2 h3
    have hstep := observeStep_coherent maxlen hm w c f page h1 h2 h3
    exact ih (observeStep maxlen (w, c, f) page).1
      (observeStep maxlen (w, c, f) page).2.1
      (observeStep maxlen (w, c, f) page).2.2 hstep.1 hstep.2.1 hstep.2.2

/-- C1 (counterexample): on `A(arrival 2, burst 0)`, `B(arrival 5, burst 3)`
with quantum 1, the simulator returns the empty timeline, so B's slice
durations sum to 0, not to its coerced burst 3: the claim fails as stated
for configurations containing a zero-burst process. -/
theorem c1_counterexample :
    sliceSum (simulate_rr_with_quanta ["A", "B"] starveBursts (fun _ => 1) starveArrivals)
        "B" ≠ max 0 (starveBursts "B") := by decide

/-- C1 (amended): for every configuration in which every listed process's
burst time is positive, the sum of slice durations per process equals that
process's burst time exactly. -/
theorem c1_slice_sum_eq_burst (ps : List String)
    (bursts quanta arrivals : String → Int)
    (hpos : ∀ p ∈ ps, 1 ≤ bursts p) :
    ∀ p ∈ ps, sliceSum (simulate_rr_with_quanta ps bursts quanta arrivals) p =
      bursts p := by
  intro p hp
  obtain ⟨_, _, _, _, hfull⟩ := simulate_exit ps bursts quanta arrivals
  rw [hfull hpos p, rr_rem0, if_pos hp]
  exact max_eq_right (by have := hpos p hp; omega)

/-- C1 (witness): the amended statement applied to the worked three-process
example. -/
theorem c1_slice_sum_eq_burst_witness :
    (∀ p ∈ ["P1", "P2", "P3"], 1 ≤ exBursts p) ∧
    sliceSum (simulate_rr_with_quanta ["P1", "P2", "P3"] exBursts (fun _ => 2) exArrivals)
        "P2" = exBursts "P2" :=
  ⟨by decide,
   c1_slice_sum_eq_burst ["P1", "P2", "P3"] exBursts (fun _ => 2) exArrivals
     (by decide) "P2" (by decide)⟩

/-- C2 (counterexample): the baseline timeline's fifth slice is `P3[8,10)`
(P3 still has its full remaining burst of 2 there), not `P3[8,9)` as the
claim states. -/
theorem c2_counterexample :
    (simulate_rr_with_quanta ["P1", "P2", "P3"] exBursts (fun _ => 2) exArrivals).take 5 ≠
      [("P1", 0, 2), ("P1", 2, 4), ("P2", 4, 6), ("P1", 6, 8), ("P3", 8, 9)] := by decide

/-- C2 (amended): on P1(0,8), P2(3,5), P3(5,2) with quantum 2 the baseline
timeline is P1[0,2) P1[2,4) P2[4,6) P1[6,8) P3[8,10) P2[10,12) P1[12,14)
P2[14,15); all bursts are exhausted and the total time is 15. -/
theorem c2_example_timeline :
    simulate_rr_with_quanta ["P1", "P2", "P3"] exBursts (fun _ => 2) exArrivals =
      [("P1", 0, 2), ("P1", 2, 4), ("P2", 4, 6), ("P1", 6, 8), ("P3", 8, 10),
       ("P2", 10, 12), ("P1", 12, 14), ("P2", 14, 15)] ∧
    (compute_metrics ["P1", "P2", "P3"] exBursts
        (simulate_rr_with_quanta ["P1", "P2", "P3"] exBursts (fun _ => 2) exArrivals)
        exArrivals).2.2.2 = 15 ∧
    sliceSum (simulate_rr_with_quanta ["P1", "P2", "P3"] exBursts (fun _ => 2) exArrivals)
        "P1" = 8 ∧
    sliceSum (simulate_rr_with_quanta ["P1", "P2", "P3"] exBursts (fun _ => 2) exArrivals)
        "P2" = 5 ∧
    sliceSum (simulate_rr_with_quanta ["P1", "P2", "P3"] exBursts (fun _ => 2) exArrivals)
        "P3" = 2 := by
  refine ⟨by decide, ?_, by decide, by decide, by decide⟩
  decide

/-- C3 (confirmed): for every process with at least one slice in the
simulator's timeline, `waiting[p] + burst[p] = turnaround[p]` holds for the
metrics computed by `compute_metrics`. -/
theorem c3_waiting_plus_burst (ps : List String)
    (bursts quanta arrivals : String → Int) (p : String) (hp : p ∈ ps)
    (hslice : ∃ s ∈ simulate_rr_with_quanta ps bursts quanta arrivals, s.1 = p) :
    (compute_metrics ps bursts
        (simulate_rr_with_quanta ps bursts quanta arrivals) arrivals).1 p + bursts p =
    (compute_metrics ps bursts
        (simulate_rr_with_quanta ps bursts quanta arrivals) arrivals).2.1 p := by
  obtain ⟨hwf, _, hserved, _, _⟩ := simulate_exit ps bursts quanta arrivals
  obtain ⟨hsum, hcomp⟩ := hserved p hslice
  have harr : rr_arr ps arrivals p = arrivals p := by rw [rr_arr, if_pos hp]
  have hrem0 : rr_rem0 ps bursts p = max 0 (bursts p) := by rw [rr_rem0, if_pos hp]
  obtain ⟨s, hs, hsp⟩ := hslice
  have hpos : 0 < sliceSum (simulate_rr_with_quanta ps bursts quanta arrivals) p :=
    sliceSum_pos _ p (fun x hx => (hwf x hx).2) ⟨s, hs, hsp⟩
  have hb : 0 < bursts p := by
    by_contra h
    push_neg at h
    rw [hsum, hrem0, max_eq_left h] at hpos
    exact absurd hpos (by omega)
  have hrem0b : rr_rem0 ps bursts p = bursts p := by
    rw [hrem0]; exact max_eq_right (le_of_lt hb)
  rw [harr, hrem0b] at hcomp
  have hne : ps ≠ [] := fun h => by rw [h] at hp; simp at hp
  have htl : simulate_rr_with_quanta ps bursts quanta arrivals ≠ [] := fun h => by
    rw [h] at hs; simp at hs
  have hany : (simulate_rr_with_quanta ps bursts quanta arrivals).any
      (fun x => x.1 == p) = true :=
    List.any_eq_true.mpr ⟨s, hs, by simp [hsp]⟩
  obtain ⟨hw, ht⟩ := compute_metrics_eval ps bursts
    (simulate_rr_with_quanta ps bursts quanta arrivals) arrivals p hp hne htl hany
  rw [hw, ht]
  rw [max_eq_right (by omega : (0:Int) ≤ lastCompletion
    (simulate_rr_with_quanta ps bursts quanta arrivals) p - arrivals p - bursts p)]
  rw [max_eq_right (by omega : (0:Int) ≤ lastCompletion
    (simulate_rr_with_quanta ps bursts quanta arrivals) p - arrivals p)]
  ring

/-- C3 (witness): applied to P2 of the worked example. -/
theorem c3_waiting_plus_burst_witness :
    ("P2" ∈ ["P1", "P2", "P3"] ∧
      ∃ s ∈ simulate_rr_with_quanta ["P1", "P2", "P3"] exBursts (fun _ => 2) exArrivals,
        s.1 = "P2") ∧
    (compute_metrics ["P1", "P2", "P3"] exBursts
        (simulate_rr_with_quanta ["P1", "P2", "P3"] exBursts (fun _ => 2) exArrivals)
        exArrivals).1 "P2" + exBursts "P2" =
    (compute_metrics ["P1", "P2", "P3"] exBursts
        (simulate_rr_with_quanta ["P1", "P2", "P3"] exBursts (fun _ => 2) exArrivals)
        exArrivals).2.1 "P2" :=
  ⟨⟨by decide, by decide⟩,
   c3_waiting_plus_burst ["P1", "P2", "P3"] exBursts (fun _ => 2) exArrivals "P2"
     (by decide) (by decide)⟩

/-- C4 (confirmed): every slice the simulator emits has strictly positive
duration, and start ticks are non-decreasing in emission order. -/
theorem c4_timeline_wellformed (ps : List String)
    (bursts quanta arrivals : String → Int) :
    (∀ s ∈ simulate_rr_with_quanta ps bursts quanta arrivals, s.2.1 < s.2.2) ∧
    (simulate_rr_with_quanta ps bursts quanta arrivals).Pairwise
      (fun x y => x.2.1 ≤ y.2.1) := by
  obtain ⟨ha, hb, _, _, _⟩ := simulate_exit ps bursts quanta arrivals
  exact ⟨fun s hs => (ha s hs).2, hb⟩

/-- C9 (confirmed): the Round-Robin simulator terminates on every input;
with the explicit iteration budget `rr_fuel` (linear in the total coerced
burst and the number of processes) the loop always completes and returns
the timeline. -/
theorem c9_terminates (ps : List String) (bursts quanta arrivals : String → Int) :
    rr_run ps bursts quanta arrivals =
      some (simulate_rr_with_quanta ps bursts quanta arrivals) :=
  rr_run_eq_simulate ps bursts quanta arrivals

/-- C10 (counterexample): with `A(0,2)`, `B(5,0)`, `C(10,3)` and quantum 2,
removing the zero-burst process B changes the other processes' slices (C is
starved when B is present), so the claim's removal-equivalence fails. -/
theorem c10_counterexample :
    ¬ ((simulate_rr_with_quanta ["A", "B", "C"] dropBursts (fun _ => 2) dropArrivals).filter
          (fun s => !(s.1 == "B")) =
        simulate_rr_with_quanta ["A", "C"] dropBursts (fun _ => 2) dropArrivals) := by
  decide

/-- C10 (amended): a process whose burst coerces to a non-positive integer
never receives a slice in the simulator's timeline. -/
theorem c10_zero_burst_no_slice (ps : List String)
    (bursts quanta arrivals : String → Int) (p : String) (hb : bursts p ≤ 0) :
    ∀ s ∈ simulate_rr_with_quanta ps bursts quanta arrivals, s.1 ≠ p := by
  obtain ⟨_, _, _, hzero, _⟩ := simulate_exit ps bursts quanta arrivals
  apply hzero
  rw [rr_rem0]
  by_cases h : p ∈ ps
  · rw [if_pos h]; exact max_eq_left hb
  · rw [if_neg h]

/-- C10 (witness): B of the three-process starvation configuration has zero
burst and indeed receives no slice. -/
theorem c10_zero_burst_no_slice_witness :
    dropBursts "B" ≤ 0 ∧
    ∀ s ∈ simulate_rr_with_quanta ["A", "B", "C"] dropBursts (fun _ => 2) dropArrivals,
      s.1 ≠ "B" :=
  ⟨by decide,
   c10_zero_burst_no_slice ["A", "B", "C"] dropBursts (fun _ => 2) dropArrivals "B"
     (by decide)⟩

/-- C8 (counterexample): at `pageCount = 10`, `hotspotFrac = 7/20` the code
truncates `10 × 0.35 = 3.5` to hotspot size 3, while the claimed formula
`max(1, round(pageCount × hotspotFrac))` gives 4. -/
theorem c8_counterexample :
    hotspot_size 10 (7 / 20) = 3 ∧ max 1 (round ((10 : ℚ) * (7 / 20))) = 4 := by
  constructor
  · rw [hotspot_size]
    norm_num
  · rw [round_eq]
    norm_num

/-- C8 (amended): the hotspot size is `max(1, trunc(P × f))`; in both
variants every constructed start lies in `[0, max(0, P − size)]`; in the
`Backend/` variant every offset of that range, the upper end included, is
attained by some draw, while in the `backend/` variant the attainable
offsets are exactly `[0, max(0, P − size) − 1]` (plus 0 when the range is
empty): the upper endpoint is never attained there. -/
theorem c8_hotspot_start_range :
    (∀ (P : Nat) (f u : ℚ), 0 ≤ u → u < 1 →
        0 ≤ hotspot_start_Backend P f u ∧
        hotspot_start_Backend P f u ≤ hotspot_max_start P f) ∧
    (∀ (P : Nat) (f : ℚ) (k : Int), 0 ≤ k → k ≤ hotspot_max_start P f →
        ∃ u : ℚ, 0 ≤ u ∧ u < 1 ∧ hotspot_start_Backend P f u = k) ∧
    (∀ (P : Nat) (f u : ℚ), 0 ≤ u → u < 1 →
        0 ≤ hotspot_start_backend P f u ∧
        hotspot_start_backend P f u ≤ hotspot_max_start P f ∧
        (0 < hotspot_max_start P f →
          hotspot_start_backend P f u ≤ hotspot_max_start P f - 1)) ∧
    (∀ (P : Nat) (f : ℚ) (k : Int), 0 ≤ k → k + 1 ≤ hotspot_max_start P f →
        ∃ u : ℚ, 0 ≤ u ∧ u < 1 ∧ hotspot_start_backend P f u = k) := by
  have hms0 : ∀ (P : Nat) (f : ℚ), 0 ≤ hotspot_max_start P f :=
    fun P f => le_max_left 0 _
  have hBeq : ∀ (P : Nat) (f u : ℚ),
      hotspot_start_Backend P f u = ⌊u * ((hotspot_max_start P f + 1 : Int) : ℚ)⌋ :=
    fun P f u => by rw [hotspot_start_Backend, if_pos (hms0 P f)]
  have hbeq : ∀ (P : Nat) (f u : ℚ), 0 < hotspot_max_start P f →
      hotspot_start_backend P f u = ⌊u * ((hotspot_max_start P f : Int) : ℚ)⌋ :=
    fun P f u h => by rw [hotspot_start_backend, if_pos h, max_eq_right (by omega)]
  refine ⟨?_, ?_, ?_, ?_⟩
  · intro P f u hu0 hu1
    rw [hBeq]
    have hcast : (0 : ℚ) < ((hotspot_max_start P f + 1 : Int) : ℚ) := by
      have h2 : (0 : Int) < hotspot_max_start P f + 1 := by
        have := hms0 P f
        omega
      exact_mod_cast h2
    constructor
    · exact Int.floor_nonneg.mpr (mul_nonneg hu0 (le_of_lt hcast))
    · have hlt : u * ((hotspot_max_start P f + 1 : Int) : ℚ) <
          ((hotspot_max_start P f + 1 : Int) : ℚ) :=
        mul_lt_of_lt_one_left hcast hu1
      have := Int.floor_lt.mpr hlt
      omega
  · intro P f k hk0 hk1
    have hcast : (0 : ℚ) < ((hotspot_max_start P f + 1 : Int) : ℚ) := by
      have h2 : (0 : Int) < hotspot_max_start P f + 1 := by
        have := hms0 P f
        omega
      exact_mod_cast h2
    refine ⟨(k : ℚ) / ((hotspot_max_start P f + 1 : Int) : ℚ), ?_, ?_, ?_⟩
    · exact div_nonneg (by exact_mod_cast hk0) (le_of_lt hcast)
    · rw [div_lt_one hcast]
      exact_mod_cast (by omega : k < hotspot_max_start P f + 1)
    · rw [hBeq, div_mul_cancel₀ _ (ne_of_gt hcast), Int.floor_intCast]
  · intro P f u hu0 hu1
    by_cases h : 0 < hotspot_max_start P f
    · rw [hbeq P f u h]
      have hcast : (0 : ℚ) < ((hotspot_max_start P f : Int) : ℚ) := by exact_mod_cast h
      have hfl0 : 0 ≤ ⌊u * ((hotspot_max_start P f : Int) : ℚ)⌋ :=
        Int.floor_nonneg.mpr (mul_nonneg hu0 (le_of_lt hcast))
      have hflt := Int.floor_lt.mpr (mul_lt_of_lt_one_left hcast hu1)
      exact ⟨hfl0, by omega, fun _ => by omega⟩
    · rw [hotspot_start_backend, if_neg h]
      exact ⟨le_refl 0, hms0 P f, fun hc => absurd hc h⟩
  · intro P f k hk0 hk1
    have hpos : 0 < hotspot_max_start P f := by omega
    have hcast : (0 : ℚ) < ((hotspot_max_start P f : Int) : ℚ) := by exact_mod_cast hpos
    refine ⟨(k : ℚ) / ((hotspot_max_start P f : Int) : ℚ), ?_, ?_, ?_⟩
    · exact div_nonneg (by exact_mod_cast hk0) (le_of_lt hcast)
    · rw [div_lt_one hcast]
      exact_mod_cast (by omega : k < hotspot_max_start P f)
    · rw [hbeq P f _ hpos, div_mul_cancel₀ _ (ne_of_gt hcast), Int.floor_intCast]

/-- C8 (witness): with `P = 10`, `f = 0` (hotspot size clamps to 1,
`max_start = 9`), the upper endpoint 9 is attainable in the `Backend/`
variant. -/
theorem c8_hotspot_start_range_witness :
    ((0 : Int) ≤ 9 ∧ (9 : Int) ≤ hotspot_max_start 10 0) ∧
    ∃ u : ℚ, 0 ≤ u ∧ u < 1 ∧ hotspot_start_Backend 10 0 u = 9 :=
  ⟨⟨by simp, by simp [hotspot_max_start, hotspot_size]⟩,
   c8_hotspot_start_range.2.1 10 0 9 (by simp)
     (by simp [hotspot_max_start, hotspot_size])⟩

/-- C5 (confirmed): a reference increments the fault counter iff the page
is not currently present in the sliding window (its reference count is
zero or absent) — stated against the counts/window coherence that holds on
every reachable observer state (final conjunct); and on window capacity 3
with reference sequence [1,1,2,3,4] the observer reports faults after each
prefix of 1, 1, 2, 3, 4 (so 4 faults, none at the second reference of 1)
and a final working-set size of 3. -/
theorem c5_fault_iff_not_in_window :
    (∀ (maxlen : Nat) (w : List Nat) (c : List (Nat × Nat)) (f page : Nat),
        cget c page = w.count page →
        ((observeStep maxlen (w, c, f) page).2.2 = f + 1 ↔ page ∉ w)) ∧
    (observe_run 3 [1] ([], [], 0)).2.2 = 1 ∧
    (observe_run 3 [1, 1] ([], [], 0)).2.2 = 1 ∧
    (observe_run 3 [1, 1, 2] ([], [], 0)).2.2 = 2 ∧
    (observe_run 3 [1, 1, 2, 3] ([], [], 0)).2.2 = 3 ∧
    (observe_run 3 [1, 1, 2, 3, 4] ([], [], 0)).2.2 = 4 ∧
    (observe_run 3 [1, 1, 2, 3, 4] ([], [], 0)).2.1.length = 3 ∧
    (∀ (maxlen : Nat) (pages : List Nat), maxlen ≠ 0 →
        ∀ q, cget (observe_run maxlen pages ([], [], 0)).2.1 q =
          (observe_run maxlen pages ([], [], 0)).1.count q) := by
  refine ⟨?_, by decide, by decide, by decide, by decide, by decide, by decide, ?_⟩
  · intro maxlen w c f page hcoh
    simp only [observeStep]
    by_cases h : cget c page = 0
    · rw [if_pos h]
      exact iff_of_true rfl
        (List.count_eq_zero.mp (by rw [← hcoh]; exact h))
    · rw [if_neg h]
      exact iff_of_false (by omega)
        (fun hnm => h (hcoh.trans (List.count_eq_zero.mpr hnm)))
  · intro maxlen pages hm q
    exact (observe_run_coherent maxlen hm pages [] [] 0 (by simp) (by simp)
      (fun q => by simp [cget])).2.2 q

/-- C5 (witness): the fault criterion applied at window [1,2] with counts
{1 ↦ 1, 2 ↦ 1}: referencing page 3 is a fault. -/
theorem c5_fault_iff_not_in_window_witness :
    cget [(1, 1), (2, 1)] 3 = ([1, 2] : List Nat).count 3 ∧
    ((observeStep 3 ([1, 2], [(1, 1), (2, 1)], 0) 3).2.2 = 0 + 1 ↔
      (3 : Nat) ∉ ([1, 2] : List Nat)) :=
  ⟨by decide,
   c5_fault_iff_not_in_window.1 3 [1, 2] [(1, 1), (2, 1)] 0 3 (by decide)⟩

/-- C6 (confirmed): after any sequence of observed references (covering
every `observe_run` call on a process created with an empty window), the
sliding window holds at most the configured capacity of references and the
page → reference-count mapping has no zero-valued entry. -/
theorem c6_window_capacity_no_zero_counts (maxlen : Nat) (pages : List Nat) :
    (observe_run maxlen pages ([], [], 0)).1.length ≤ maxlen ∧
    ∀ e ∈ (observe_run maxlen pages ([], [], 0)).2.1, 0 < e.2 :=
  observe_run_basic maxlen pages [] [] 0 (by simp) (by intro e he; simp at he)

set_option maxRecDepth 10000 in
/-- C7 (confirmed): with an explicit RNG seed, the memory-aware scenario
is a function of the configuration alone — every derived random source is
taken from the seed stream, so two runs under different ambient entropy
produce identical `SimulationResult`s; with no seed supplied, two runs may
diverge (witnessed by entropy streams under which the two runs report
different memory estimates). -/
theorem c7_seeded_deterministic :
    (∀ (mt : Nat → Nat → Frac) (ent1 ent2 ent1' ent2' : Nat → Frac)
        (q : Int) (prs : List ProcessSpec) (s : Nat),
        simulate_memory_aware mt ent1 ent2 ⟨q, prs, some s⟩ =
          simulate_memory_aware mt ent1' ent2' ⟨q, prs, some s⟩) ∧
    (∃ (mt : Nat → Nat → Frac) (ent1 ent2 ent1' ent2' : Nat → Frac)
        (cfg : SystemConfig), cfg.rng_seed = none ∧
        simulate_memory_aware mt ent1 ent2 cfg ≠
          simulate_memory_aware mt ent1' ent2' cfg) := by
  constructor
  · intro mt ent1 ent2 ent1' ent2' q prs s
    rfl
  · refine ⟨mtZero, entZero, entZero, entZero, entAlt, divergeConfig, rfl, ?_⟩
    exact fun h =>
      absurd (congrArg SimulationResult.memory_estimates h) (by decide)

end MACS

